import Mathlib

/-!
Verification development for the four-digit expression search engine
(src/src/solution.ts).  The TypeScript classes Segment, DigitSegment,
Combination, Addition, Subtraction and Calculator are shallowly embedded
as Lean structures and functions; JavaScript numbers are modelled as Int,
JavaScript strings as String, the insertion-ordered Set of expression
texts as a duplicate-free List String, and the insertion-ordered Map of
solutions as a List of key/list pairs.  The do/while fixed-point loop of
Calculator.generateOperations is modelled with an explicit fuel
parameter; convergence within a concrete fuel bound is proved below.
-/

/-! ### Decimal rendering of integers, as produced by JavaScript toString -/

def digitChars : List Char := ['0', '1', '2', '3', '4', '5', '6', '7', '8', '9']

def digitChar (n : Nat) : Char := digitChars.getD n '9'

def natToDigitsGo : Nat → Nat → List Char
  | 0, _ => []
  | fuel + 1, n =>
    if n < 10 then [digitChar n] else natToDigitsGo fuel (n / 10) ++ [digitChar (n % 10)]

def natToDigits (n : Nat) : List Char := natToDigitsGo (n + 1) n

def natToString (n : Nat) : String := String.mk (natToDigits n)

/-- Decimal rendering of an integer, as JavaScript Number.toString yields
for integral values: an optional leading minus sign, then the digits. -/
def intToString (v : Int) : String :=
  if v < 0 then "-" ++ natToString v.natAbs else natToString v.natAbs

/-! ### Standard arithmetic evaluation of rendered expression texts

Grammar: an expression is a term followed by a chain of binary " + " or
" - " steps applied left-associatively with equal precedence; a term is a
signed decimal numeral or a parenthesised expression.  The parser works
on character lists and uses a fuel argument for termination; fuel
monotonicity and a sufficient concrete fuel bound are proved later. -/

def digitsVal (l : List Char) : Nat := l.foldl (fun a c => 10 * a + (c.toNat - 48)) 0

def parseNum (cs : List Char) : Option (Int × List Char) :=
  match cs with
  | '-' :: rest =>
      let ds := rest.takeWhile Char.isDigit
      if ds = [] then none
      else some (-(digitsVal ds : Int), rest.dropWhile Char.isDigit)
  | _ =>
      let ds := cs.takeWhile Char.isDigit
      if ds = [] then none
      else some ((digitsVal ds : Int), cs.dropWhile Char.isDigit)

/-- Recognise a binary operator link: a space, a plus or minus sign, and a
space.  Returns the operator (true for plus) and the remaining input. -/
def chainStep (cs : List Char) : Option (Bool × List Char) :=
  match cs with
  | ' ' :: '+' :: ' ' :: rest => some (true, rest)
  | ' ' :: '-' :: ' ' :: rest => some (false, rest)
  | _ => none

mutual

def parseTerm : Nat → List Char → Option (Int × List Char)
  | 0, _ => none
  | fuel + 1, cs =>
    if cs.head? = some '(' then
      match parseExpr fuel cs.tail with
      | some (v, r) => if r.head? = some ')' then some (v, r.tail) else none
      | none => none
    else parseNum cs

def parseChain : Nat → Int → List Char → Option (Int × List Char)
  | 0, _, _ => none
  | fuel + 1, acc, cs =>
    match chainStep cs with
    | some (isAdd, rest) =>
      match parseTerm fuel rest with
      | some (v, r) => parseChain fuel (if isAdd then acc + v else acc - v) r
      | none => none
    | none => some (acc, cs)

def parseExpr : Nat → List Char → Option (Int × List Char)
  | 0, _ => none
  | fuel + 1, cs =>
    match parseTerm fuel cs with
    | some (v, r) => parseChain fuel v r
    | none => none

end

/-- Standard arithmetic evaluation of a rendered expression string:
left-associative + and - of equal precedence, with parentheses and
signed decimal numerals.  Returns none unless the whole string is a
well-formed expression. -/
def evalString (s : String) : Option Int :=
  match parseExpr (2 * s.data.length + 2) s.data with
  | some (v, []) => some v
  | _ => none

/-! ### The Segment value model (class Segment of solution.ts) -/

/-- State of a Segment object after its constructor has finished: the set
of expression texts (insertion ordered, duplicate free), the numeric
value, the four-bit used-digit mask, and the boolean flags. -/
structure Segment where
  expressions : List String
  value : Int
  usedDigits : Nat
  isValid : Bool
  isNumber : Bool
  isComplete : Bool
  isSolution : Bool
  isCommutative : Bool
  isDistributive : Bool
deriving Repr, DecidableEq

namespace Segment

/-- Overlap test on the used-digit masks, written exactly as the source:
the bitwise or differs from the bitwise xor. -/
def haveRepeatingDigits (segmentA segmentB : Segment) : Bool :=
  (segmentA.usedDigits ||| segmentB.usedDigits) != (segmentA.usedDigits ^^^ segmentB.usedDigits)

/-- Model of the protected setValue: stores the value and, when the
segment is complete and the value lies in the solution range, marks the
segment as a solution. -/
def setValue (s : Segment) (v : Int) : Segment :=
  if s.isComplete && decide ((0 : Int) < v) && decide (v ≤ 100) then
    { s with value := v, isSolution := true }
  else
    { s with value := v }

/-- Model of the protected addExpression: the Set keeps insertion order
and ignores a text that is already present. -/
def addExpression (s : Segment) (text : String) : Segment :=
  if text ∈ s.expressions then s else { s with expressions := s.expressions ++ [text] }

/-- Loose duplicate test of the source: equal value and at least one
shared expression text. -/
def equals (s segment : Segment) : Bool :=
  decide (s.value = segment.value) &&
    s.expressions.any (fun expression => decide (expression ∈ segment.expressions))

/-- Model of toString: the first element of the expression set. -/
def str (s : Segment) : String := s.expressions.headD ""

/-- Model of iterateExpressions for a segment with two operands: fold the
consumer over the Cartesian product of the operand expression sets, in
insertion order. -/
def iterateExpressions (operandA operandB : Segment)
    (consumer : Segment → String → String → Segment) (init : Segment) : Segment :=
  operandA.expressions.foldl
    (fun s expressionA =>
      operandB.expressions.foldl (fun s expressionB => consumer s expressionA expressionB) s)
    init

end Segment

/-- State of the base Segment constructor for a composite with two
operands and an optional operator: mask is the union of the operand
masks, complete iff the mask is the full four-bit set, and the
commutative/distributive flags are derived from the operator. -/
def baseSegment (usedDigits : Nat) (isCommutative isDistributive : Bool) : Segment :=
  { expressions := []
    value := 0
    usedDigits := usedDigits
    isValid := false
    isNumber := false
    isComplete := decide (usedDigits = 15)
    isSolution := false
    isCommutative := isCommutative
    isDistributive := isDistributive }

namespace DigitSegment

/-- Model of the DigitSegment constructor: records the digit text and
value, then checks the positional index, throwing when it is outside
zero to three, and otherwise sets the single-bit mask. -/
def make (digit : Int) (index : Int) : Except String Segment :=
  let s0 : Segment :=
    { expressions := [], value := 0, usedDigits := 0, isValid := false, isNumber := false,
      isComplete := false, isSolution := false, isCommutative := false, isDistributive := false }
  let s1 := (s0.addExpression (intToString digit)).setValue digit
  if index < 0 || 3 < index then
    Except.error "Invalid digit index argument."
  else
    Except.ok { s1 with usedDigits := 2 ^ index.toNat, isValid := true, isNumber := true }

end DigitSegment

namespace Combination

/-- Model of the Combination constructor: validate, and when valid attach
the concatenated value and its single decimal text. -/
def make (numberA numberB : Segment) : Segment :=
  let base := baseSegment (numberA.usedDigits ||| numberB.usedDigits) false false
  let valid := !Segment.haveRepeatingDigits numberA numberB &&
      numberA.isNumber && numberB.isNumber &&
      decide (numberA.value ≠ 0) && !base.isComplete
  if valid then
    let multiplier : Int := (10 : Int) ^ (intToString numberB.value).length
    let value := numberA.value * multiplier + numberB.value
    let s := ({ base with isValid := true }.addExpression (intToString value)).setValue value
    { s with isNumber := true }
  else base

end Combination

namespace Addition

/-- Model of the Addition constructor: set the sum as value, validate,
and when valid record both orderings of every pair of operand texts. -/
def make (operandA operandB : Segment) : Segment :=
  let base := baseSegment (operandA.usedDigits ||| operandB.usedDigits) true true
  let s1 := base.setValue (operandA.value + operandB.value)
  let valid := !Segment.haveRepeatingDigits operandA operandB &&
      ((s1.isComplete && s1.isSolution) || !s1.isComplete)
  if valid then
    Segment.iterateExpressions operandA operandB
      (fun s expressionA expressionB =>
        (s.addExpression (expressionA ++ " + " ++ expressionB)).addExpression
          (expressionB ++ " + " ++ expressionA))
      { s1 with isValid := true }
  else s1

end Addition

namespace Subtraction

/-- Model of the Subtraction constructor: set the difference as value,
validate, and when valid record one text per pair of operand texts,
parenthesising the right operand text when that operand is distributive. -/
def make (operandA operandB : Segment) : Segment :=
  let base := baseSegment (operandA.usedDigits ||| operandB.usedDigits) false true
  let s1 := base.setValue (operandA.value - operandB.value)
  let valid := !Segment.haveRepeatingDigits operandA operandB &&
      ((s1.isComplete && s1.isSolution) || !s1.isComplete)
  if valid then
    Segment.iterateExpressions operandA operandB
      (fun s expressionA expressionB =>
        let expressionB := if operandB.isDistributive then "(" ++ expressionB ++ ")" else expressionB
        s.addExpression (expressionA ++ " - " ++ expressionB))
      { s1 with isValid := true }
  else s1

end Subtraction

/-! ### The Calculator engine -/

/-- Insertion-ordered solution map from value to the discovered texts. -/
abbrev Solutions := List (Int × List String)

/-- Engine state: the append-only segment registry and the solution map. -/
structure Calculator where
  segments : List Segment
  solutions : Solutions
deriving Repr, DecidableEq

namespace Calculator

/-- Model of addSolution: push onto an existing key or create the entry. -/
def addSolution (sols : Solutions) (value : Int) (text : String) : Solutions :=
  if sols.any (fun p => decide (p.1 = value)) then
    sols.map (fun p => if p.1 = value then (p.1, p.2 ++ [text]) else p)
  else
    sols ++ [(value, [text])]

/-- Model of operationExistsIn: some member of the list equals the
candidate operation. -/
def operationExistsIn (operation : Segment) (operationList : List Segment) : Bool :=
  operationList.any (fun segment => segment.equals operation)

/-- Model of addOperation: the candidate joins the round batch only when
it is valid and not a duplicate of the batch or of the registry, and a
solution candidate is recorded at that moment.  The state pairs the
round batch with the solution map; the registry is fixed for the round. -/
def addOperation (segments : List Segment) (st : List Segment × Solutions)
    (operation : Segment) : List Segment × Solutions :=
  if operation.isValid && !operationExistsIn operation st.1 &&
      !operationExistsIn operation segments then
    (st.1 ++ [operation],
      if operation.isSolution then addSolution st.2 operation.value operation.str else st.2)
  else st

/-- One ordered pair of the round: skip overlapping masks, otherwise try
the Addition and then the Subtraction built from the pair. -/
def addOperationPair (segments : List Segment) (st : List Segment × Solutions)
    (segmentA segmentB : Segment) : List Segment × Solutions :=
  if Segment.haveRepeatingDigits segmentA segmentB then st
  else
    addOperation segments
      (addOperation segments st (Addition.make segmentA segmentB))
      (Subtraction.make segmentA segmentB)

/-- One full round of generateOperations: every ordered pair of registry
segments, in registry order, against the fixed registry snapshot. -/
def runRound (segments : List Segment) (sols : Solutions) : List Segment × Solutions :=
  segments.foldl
    (fun st segmentA =>
      segments.foldl (fun st segmentB => addOperationPair segments st segmentA segmentB) st)
    ([], sols)

/-- Model of the do/while loop of generateOperations with explicit fuel:
run a round, append its batch to the registry, and stop successfully
when a round produced no new operation.  The boolean reports whether the
loop reached its fixed point within the given fuel. -/
def generateOperations : Nat → List Segment → Solutions → List Segment × Solutions × Bool
  | 0, segments, sols => (segments, sols, false)
  | fuel + 1, segments, sols =>
    let (batch, sols1) := runRound segments sols
    if batch.isEmpty then (segments ++ batch, sols1, true)
    else generateOperations fuel (segments ++ batch) sols1

/-- Model of digits.forEach(addDigit): one DigitSegment per input digit
at its positional index, in order. -/
def seedDigits : List Int → Int → Except String (List Segment)
  | [], _ => Except.ok []
  | digit :: rest, index => do
    let s ← DigitSegment.make digit index
    let l ← seedDigits rest (index + 1)
    Except.ok (s :: l)

/-- Inner loop of addNumberCombinations: try to extend the fresh
two-digit candidate with every registry segment, keeping the first valid
three-digit result per distinct value. -/
def addThreeDigits (segments : List Segment) (newTwoDigit : Segment)
    (threeDigits : List Segment) : List Segment :=
  segments.foldl
    (fun threeDigits numberC =>
      let newThreeDigit := Combination.make newTwoDigit numberC
      if newThreeDigit.isValid &&
          !threeDigits.any (fun threeDigit => decide (threeDigit.value = newThreeDigit.value)) then
        threeDigits ++ [newThreeDigit]
      else threeDigits)
    threeDigits

/-- One ordered pair of addNumberCombinations: keep the first valid
two-digit result per distinct value, and always probe the three-digit
extensions of the fresh candidate. -/
def addCombinationPair (segments : List Segment) (acc : List Segment × List Segment)
    (numberA numberB : Segment) : List Segment × List Segment :=
  let newTwoDigit := Combination.make numberA numberB
  let twoDigits :=
    if newTwoDigit.isValid &&
        !acc.1.any (fun twoDigit => decide (twoDigit.value = newTwoDigit.value)) then
      acc.1 ++ [newTwoDigit]
    else acc.1
  (twoDigits, addThreeDigits segments newTwoDigit acc.2)

/-- Model of addNumberCombinations: the double loop over the registry,
then append the two-digit and three-digit numbers to the registry. -/
def addNumberCombinations (segments : List Segment) : List Segment :=
  let acc :=
    segments.foldl
      (fun acc numberA =>
        segments.foldl (fun acc numberB => addCombinationPair segments acc numberA numberB) acc)
      ([], [])
  segments ++ acc.1 ++ acc.2

/-- Model of the Calculator constructor up to the operator-closure loop:
the length check, the digit seeding, and the number combinations. -/
def init (digits : List Int) : Except String Calculator :=
  if digits.length ≠ 4 then Except.error "Invalid digits argument."
  else do
    let seeds ← seedDigits digits 0
    Except.ok { segments := addNumberCombinations seeds, solutions := [] }

/-- Model of the whole Calculator constructor, with explicit fuel for the
operator-closure loop. -/
def make (fuel : Nat) (digits : List Int) : Except String Calculator := do
  let c ← init digits
  let r := generateOperations fuel c.segments c.solutions
  Except.ok { segments := r.1, solutions := r.2.1 }

end Calculator

/-! ### Lemmas: decimal rendering round trip -/

theorem digitChar_isDigit (n : Nat) : (digitChar n).isDigit = true := by
  rcases Nat.lt_or_ge n 10 with h | h
  · interval_cases n <;> decide
  · unfold digitChar
    rw [List.getD_eq_getElem?_getD, List.getElem?_eq_none (by simpa [digitChars] using h)]
    decide

theorem digitChar_toNat (n : Nat) (h : n < 10) : (digitChar n).toNat = 48 + n := by
  interval_cases n <;> decide

theorem digitsVal_append (l : List Char) (c : Char) :
    digitsVal (l ++ [c]) = 10 * digitsVal l + (c.toNat - 48) := by
  unfold digitsVal
  rw [List.foldl_append]
  rfl

theorem natToDigitsGo_irrel :
    ∀ fuel fuel2 n, n < fuel → n < fuel2 → natToDigitsGo fuel n = natToDigitsGo fuel2 n := by
  intro fuel
  induction fuel with
  | zero => omega
  | succ f ih =>
    intro fuel2 n h1 h2
    match fuel2, h2 with
    | g + 1, h2 =>
      simp only [natToDigitsGo]
      by_cases hn : n < 10
      · simp [hn]
      · simp only [if_neg hn]
        rw [ih g (n / 10) (by omega) (by omega)]

theorem natToDigits_eq (n : Nat) :
    natToDigits n =
      if n < 10 then [digitChar n] else natToDigits (n / 10) ++ [digitChar (n % 10)] := by
  show natToDigitsGo (n + 1) n = _
  simp only [natToDigitsGo]
  by_cases hn : n < 10
  · simp [hn]
  · simp only [if_neg hn]
    rw [natToDigitsGo_irrel n (n / 10 + 1) (n / 10) (by omega) (by omega)]
    rfl

theorem natToDigits_ne_nil (n : Nat) : natToDigits n ≠ [] := by
  rw [natToDigits_eq]
  split <;> simp

theorem natToDigits_all_digit : ∀ n, ∀ c ∈ natToDigits n, c.isDigit = true := by
  intro n
  induction n using Nat.strong_induction_on with
  | _ n ih =>
    rw [natToDigits_eq]
    by_cases hn : n < 10
    · simp only [if_pos hn, List.mem_singleton]
      rintro c rfl
      exact digitChar_isDigit n
    · simp only [if_neg hn, List.mem_append, List.mem_singleton]
      rintro c (hc | rfl)
      · exact ih (n / 10) (by omega) c hc
      · exact digitChar_isDigit _

theorem digitsVal_natToDigits : ∀ n, digitsVal (natToDigits n) = n := by
  intro n
  induction n using Nat.strong_induction_on with
  | _ n ih =>
    rw [natToDigits_eq]
    by_cases hn : n < 10
    · simp only [if_pos hn]
      show 10 * 0 + ((digitChar n).toNat - 48) = n
      rw [digitChar_toNat n hn]
      omega
    · simp only [if_neg hn]
      rw [digitsVal_append, ih (n / 10) (by omega), digitChar_toNat (n % 10) (by omega)]
      omega

/-! ### Lemmas: numeral parsing -/

/-- Heads of a character list that cannot start or continue a numeral. -/
def ndHead (cs : List Char) : Prop := ∀ c ∈ cs.head?, c.isDigit = false

theorem ndHead_nil : ndHead [] := by intro c hc; simp at hc

theorem ndHead_cons {c : Char} {cs : List Char} (h : c.isDigit = false) : ndHead (c :: cs) := by
  intro d hd
  simp only [List.head?_cons, Option.mem_def, Option.some.injEq] at hd
  exact hd ▸ h

theorem takeWhile_append_all {p : Char → Bool} :
    ∀ l r : List Char, (∀ c ∈ l, p c = true) → (∀ c ∈ r.head?, p c = false) →
      (l ++ r).takeWhile p = l ∧ (l ++ r).dropWhile p = r := by
  intro l
  induction l with
  | nil =>
    intro r _ hr
    cases r with
    | nil => simp
    | cons c cs =>
      have hc := hr c (by simp)
      simp [List.takeWhile, List.dropWhile, hc]
  | cons a l ih =>
    intro r hl hr
    have ha : p a = true := hl a (by simp)
    have := ih r (fun c hc => hl c (by simp [hc])) hr
    simp [List.takeWhile, List.dropWhile, ha, this.1, this.2]

theorem parseNum_not_dash (c : Char) (cs : List Char) (hned : c ≠ '-') :
    parseNum (c :: cs) =
      (if (c :: cs).takeWhile Char.isDigit = [] then none
       else some ((digitsVal ((c :: cs).takeWhile Char.isDigit) : Int),
         (c :: cs).dropWhile Char.isDigit)) := by
  unfold parseNum
  split
  next rest heq =>
    injection heq with h1 h2
    exact absurd h1 hned
  next => rfl

theorem parseNum_natToDigits (n : Nat) (r : List Char) (hr : ndHead r) :
    parseNum (natToDigits n ++ r) = some ((n : Int), r) := by
  obtain ⟨tw, dw⟩ := takeWhile_append_all (natToDigits n) r (natToDigits_all_digit n) hr
  cases hnd : natToDigits n with
  | nil => exact absurd hnd (natToDigits_ne_nil n)
  | cons c cs =>
    have hcd : c.isDigit = true := natToDigits_all_digit n c (by rw [hnd]; simp)
    rw [hnd] at tw dw
    have hned : c ≠ '-' := by
      intro e
      rw [e] at hcd
      exact absurd hcd (by decide)
    rw [List.cons_append, parseNum_not_dash c (cs ++ r) hned, ← List.cons_append, tw, dw]
    rw [if_neg (by simp)]
    rw [← hnd, digitsVal_natToDigits]

theorem data_natToString (n : Nat) : (natToString n).data = natToDigits n := rfl

theorem parseNum_intToString (v : Int) (r : List Char) (hr : ndHead r) :
    parseNum ((intToString v).data ++ r) = some (v, r) := by
  unfold intToString
  by_cases hv : v < 0
  · simp only [if_pos hv]
    rw [String.data_append, data_natToString]
    show parseNum ('-' :: (natToDigits v.natAbs ++ r)) = _
    obtain ⟨tw, dw⟩ := takeWhile_append_all _ r (natToDigits_all_digit v.natAbs) hr
    simp only [parseNum, tw, dw]
    rw [if_neg (natToDigits_ne_nil _)]
    rw [digitsVal_natToDigits]
    congr 1
    congr 1
    omega
  · simp only [if_neg hv]
    rw [data_natToString, parseNum_natToDigits _ r hr]
    congr 2
    omega

/-! ### Lemmas: the expression parser -/

theorem chainStep_eq_some {cs : List Char} {b : Bool} {rest : List Char}
    (h : chainStep cs = some (b, rest)) :
    (b = true ∧ cs = ' ' :: '+' :: ' ' :: rest) ∨ (b = false ∧ cs = ' ' :: '-' :: ' ' :: rest) := by
  unfold chainStep at h
  split at h
  · left
    injection h with h1
    injection h1 with hb hr
    exact ⟨hb.symm, by rw [hr]⟩
  · right
    injection h with h1
    injection h1 with hb hr
    exact ⟨hb.symm, by rw [hr]⟩
  · exact absurd h (by simp)

theorem chainStep_none_of_good {cs : List Char}
    (h : cs.head? = some ')' ∨ cs = []) : chainStep cs = none := by
  rcases h with h | rfl
  · cases cs with
    | nil => rfl
    | cons c cs0 =>
      have : c = ')' := by simpa using h
      rw [this]
      rfl
  · rfl

theorem parseChain_nil {fuel : Nat} {acc v : Int} {r : List Char}
    (h : parseChain fuel acc [] = some (v, r)) : v = acc ∧ r = [] := by
  cases fuel with
  | zero => exact absurd h (by simp [parseChain])
  | succ f =>
    simp only [parseChain, chainStep] at h
    injection h with h1
    injection h1 with hv hr
    exact ⟨hv.symm, hr.symm⟩

theorem ndHead_rparen {ds : List Char} (h : ds.head? = some ')' ∨ ds = []) : ndHead ds := by
  rcases h with h | rfl
  · cases ds with
    | nil => exact ndHead_nil
    | cons c cs =>
      have : c = ')' := by simpa using h
      rw [this]
      exact ndHead_cons (by decide)
  · exact ndHead_nil

theorem parseNum_head_not_lparen {cs : List Char} {v : Int} {r : List Char}
    (h : parseNum cs = some (v, r)) : cs.head? ≠ some '(' := by
  intro hc
  cases cs with
  | nil => simp at hc
  | cons c cs0 =>
    have hc : c = '(' := by simpa using hc
    subst hc
    exact absurd h (by simp [parseNum, List.takeWhile])

theorem parse_mono : ∀ fuel fuel2, fuel ≤ fuel2 →
    (∀ cs v r, parseTerm fuel cs = some (v, r) → parseTerm fuel2 cs = some (v, r)) ∧
    (∀ acc cs v r, parseChain fuel acc cs = some (v, r) → parseChain fuel2 acc cs = some (v, r)) ∧
    (∀ cs v r, parseExpr fuel cs = some (v, r) → parseExpr fuel2 cs = some (v, r)) := by
  intro fuel
  induction fuel with
  | zero =>
    refine fun fuel2 _ => ⟨?_, ?_, ?_⟩
    · intro cs v r h
      exact absurd h (by simp [parseTerm])
    · intro acc cs v r h
      exact absurd h (by simp [parseChain])
    · intro cs v r h
      exact absurd h (by simp [parseExpr])
  | succ f ih =>
    intro fuel2 hle
    match fuel2, hle with
    | g + 1, hle =>
      obtain ⟨ihT, ihC, ihE⟩ := ih g (by omega)
      refine ⟨?_, ?_, ?_⟩
      · intro cs v r h
        simp only [parseTerm] at h ⊢
        by_cases hp : cs.head? = some '('
        · simp only [if_pos hp] at h ⊢
          cases he : parseExpr f cs.tail with
          | none => rw [he] at h; exact absurd h (by simp)
          | some p =>
            obtain ⟨v0, r0⟩ := p
            rw [he] at h
            rw [ihE cs.tail v0 r0 he]
            exact h
        · simp only [if_neg hp] at h ⊢
          exact h
      · intro acc cs v r h
        simp only [parseChain] at h ⊢
        cases hc : chainStep cs with
        | none => rw [hc] at h; exact h
        | some p =>
          obtain ⟨isAdd, rest⟩ := p
          rw [hc] at h
          dsimp only at h ⊢
          cases ht : parseTerm f rest with
          | none => rw [ht] at h; exact absurd h (by simp)
          | some q =>
            obtain ⟨v1, r1⟩ := q
            rw [ht] at h
            rw [ihT rest v1 r1 ht]
            exact ihC _ r1 v r h
      · intro cs v r h
        simp only [parseExpr] at h ⊢
        cases ht : parseTerm f cs with
        | none => rw [ht] at h; exact absurd h (by simp)
        | some q =>
          obtain ⟨v0, r0⟩ := q
          rw [ht] at h
          rw [ihT cs v0 r0 ht]
          exact ihC v0 r0 v r h

theorem parseTerm_mono {f g : Nat} (hle : f ≤ g) {cs : List Char} {v : Int} {r : List Char}
    (h : parseTerm f cs = some (v, r)) : parseTerm g cs = some (v, r) :=
  (parse_mono f g hle).1 cs v r h

theorem parseChain_mono {f g : Nat} (hle : f ≤ g) {acc : Int} {cs : List Char} {v : Int}
    {r : List Char} (h : parseChain f acc cs = some (v, r)) : parseChain g acc cs = some (v, r) :=
  (parse_mono f g hle).2.1 acc cs v r h

theorem parseExpr_mono {f g : Nat} (hle : f ≤ g) {cs : List Char} {v : Int} {r : List Char}
    (h : parseExpr f cs = some (v, r)) : parseExpr g cs = some (v, r) :=
  (parse_mono f g hle).2.2 cs v r h

theorem ndHead_append_dropWhile (l ds : List Char)
    (hds : l.dropWhile Char.isDigit ≠ [] ∨ ndHead ds) :
    ndHead (l.dropWhile Char.isDigit ++ ds) := by
  cases hdw : l.dropWhile Char.isDigit with
  | nil =>
    rcases hds with hne | hnd
    · exact absurd hdw hne
    · simpa using hnd
  | cons c r0 =>
    rw [List.cons_append]
    refine ndHead_cons ?_
    have := List.head_dropWhile_not Char.isDigit l (by rw [hdw]; simp)
    rwa [List.head_eq_iff_head?_eq_some (by rw [hdw]; simp) |>.mpr (by rw [hdw]; rfl)] at this

theorem takeWhile_dropWhile_append (l ds : List Char)
    (hds : l.dropWhile Char.isDigit ≠ [] ∨ ndHead ds) :
    (l ++ ds).takeWhile Char.isDigit = l.takeWhile Char.isDigit ∧
    (l ++ ds).dropWhile Char.isDigit = l.dropWhile Char.isDigit ++ ds := by
  have hnd := ndHead_append_dropWhile l ds hds
  have hsplit := List.takeWhile_append_dropWhile (p := Char.isDigit) (l := l)
  have h2 := takeWhile_append_all (l.takeWhile Char.isDigit)
      (l.dropWhile Char.isDigit ++ ds) (fun c hc => List.mem_takeWhile_imp hc) hnd
  constructor
  · rw [show l ++ ds = l.takeWhile Char.isDigit ++ (l.dropWhile Char.isDigit ++ ds) by
      rw [← List.append_assoc, hsplit]]
    exact h2.1
  · rw [show l ++ ds = l.takeWhile Char.isDigit ++ (l.dropWhile Char.isDigit ++ ds) by
      rw [← List.append_assoc, hsplit]]
    rw [h2.2]

theorem parseNum_append {cs : List Char} {v : Int} {r ds : List Char}
    (h : parseNum cs = some (v, r)) (hds : r ≠ [] ∨ ndHead ds) :
    parseNum (cs ++ ds) = some (v, r ++ ds) := by
  cases cs with
  | nil => exact absurd h (by simp [parseNum])
  | cons c cs0 =>
    by_cases hc : c = '-'
    · subst hc
      simp only [parseNum] at h
      by_cases htw : cs0.takeWhile Char.isDigit = []
      · rw [if_pos htw] at h
        exact absurd h (by simp)
      · rw [if_neg htw] at h
        injection h with h1
        injection h1 with hv hr
        obtain ⟨tw, dw⟩ := takeWhile_dropWhile_append cs0 ds (by rw [hr]; exact hds)
        rw [List.cons_append]
        simp only [parseNum, tw, dw]
        rw [if_neg htw, ← hv, ← hr]
    · rw [parseNum_not_dash c cs0 hc] at h
      by_cases htw : (c :: cs0).takeWhile Char.isDigit = []
      · rw [if_pos htw] at h
        exact absurd h (by simp)
      · rw [if_neg htw] at h
        injection h with h1
        injection h1 with hv hr
        obtain ⟨tw, dw⟩ := takeWhile_dropWhile_append (c :: cs0) ds (by rw [hr]; exact hds)
        rw [List.cons_append, parseNum_not_dash c (cs0 ++ ds) hc, ← List.cons_append, tw, dw]
        rw [if_neg htw, ← hv, ← hr]

theorem chainStep_append {cs : List Char} {b : Bool} {rest ds : List Char}
    (h : chainStep cs = some (b, rest)) : chainStep (cs ++ ds) = some (b, rest ++ ds) := by
  rcases chainStep_eq_some h with ⟨hb, hcs⟩ | ⟨hb, hcs⟩ <;> subst hb <;> subst hcs <;> rfl

theorem parse_append : ∀ fuel,
    (∀ cs v r ds, parseTerm fuel cs = some (v, r) → (r ≠ [] ∨ ndHead ds) →
        parseTerm fuel (cs ++ ds) = some (v, r ++ ds)) ∧
    (∀ acc cs v r ds, parseChain fuel acc cs = some (v, r) →
        ((r ++ ds).head? = some ')' ∨ r ++ ds = []) →
        parseChain fuel acc (cs ++ ds) = some (v, r ++ ds)) ∧
    (∀ cs v r ds, parseExpr fuel cs = some (v, r) →
        ((r ++ ds).head? = some ')' ∨ r ++ ds = []) →
        parseExpr fuel (cs ++ ds) = some (v, r ++ ds)) := by
  intro fuel
  induction fuel with
  | zero =>
    exact ⟨fun _ _ _ _ h => absurd h (by simp [parseTerm]),
      fun _ _ _ _ _ h => absurd h (by simp [parseChain]),
      fun _ _ _ _ h => absurd h (by simp [parseExpr])⟩
  | succ f ih =>
    obtain ⟨ihT, ihC, ihE⟩ := ih
    refine ⟨?_, ?_, ?_⟩
    · intro cs v r ds h hds
      simp only [parseTerm] at h ⊢
      by_cases hp : cs.head? = some '('
      · cases cs with
        | nil => simp at hp
        | cons c cs0 =>
          have hc : c = '(' := by simpa using hp
          subst hc
          simp only [List.head?_cons, List.tail_cons, if_true] at h
          rw [List.cons_append]
          simp only [List.head?_cons, List.tail_cons, if_true]
          cases he : parseExpr f cs0 with
          | none => rw [he] at h; exact absurd h (by simp)
          | some q =>
            obtain ⟨v0, r0⟩ := q
            rw [he] at h
            dsimp only at h
            by_cases hr0 : r0.head? = some ')'
            · rw [if_pos hr0] at h
              injection h with h1
              injection h1 with hv hr
              cases r0 with
              | nil => simp at hr0
              | cons d r1 =>
                have hd : d = ')' := by simpa using hr0
                subst hd
                rw [ihE cs0 v0 (')' :: r1) ds he (Or.inl (by simp))]
                dsimp only
                rw [List.cons_append, if_pos (by simp)]
                simp only [List.tail_cons] at hr ⊢
                rw [hv, hr]
            · rw [if_neg hr0] at h
              exact absurd h (by simp)
      · rw [if_neg hp] at h
        cases cs with
        | nil => exact absurd h (by simp [parseNum])
        | cons c cs0 =>
          rw [if_neg (by simpa using hp)]
          exact parseNum_append h hds
    · intro acc cs v r ds h hds
      simp only [parseChain] at h ⊢
      cases hc : chainStep cs with
      | none =>
        rw [hc] at h
        dsimp only at h
        injection h with h1
        injection h1 with hv hr
        rw [chainStep_none_of_good (by rw [← hr] at hds; exact hds)]
        dsimp only
        rw [hv, hr]
      | some p =>
        obtain ⟨isAdd, rest⟩ := p
        rw [hc] at h
        dsimp only at h
        rw [chainStep_append hc]
        dsimp only
        cases ht : parseTerm f rest with
        | none => rw [ht] at h; exact absurd h (by simp)
        | some q =>
          obtain ⟨v1, r1⟩ := q
          rw [ht] at h
          dsimp only at h
          have hr1 : r1 ≠ [] ∨ ndHead ds := by
            by_cases hnil : r1 = []
            · right
              subst hnil
              obtain ⟨hv, hr⟩ := parseChain_nil h
              rw [hr] at hds
              exact ndHead_rparen (by simpa using hds)
            · exact Or.inl hnil
          rw [ihT rest v1 r1 ds ht hr1]
          dsimp only
          exact ihC _ r1 v r ds h hds
    · intro cs v r ds h hds
      simp only [parseExpr] at h ⊢
      cases ht : parseTerm f cs with
      | none => rw [ht] at h; exact absurd h (by simp)
      | some q =>
        obtain ⟨v0, r0⟩ := q
        rw [ht] at h
        dsimp only at h
        have hr0 : r0 ≠ [] ∨ ndHead ds := by
          by_cases hnil : r0 = []
          · right
            subst hnil
            obtain ⟨hv, hr⟩ := parseChain_nil h
            rw [hr] at hds
            exact ndHead_rparen (by simpa using hds)
          · exact Or.inl hnil
        rw [ihT cs v0 r0 ds ht hr0]
        dsimp only
        exact ihC v0 r0 v r ds h hds

theorem parseChain_shift : ∀ fuel (d acc : Int) cs v r,
    parseChain fuel acc cs = some (v, r) → parseChain fuel (d + acc) cs = some (d + v, r) := by
  intro fuel
  induction fuel with
  | zero =>
    intro d acc cs v r h
    exact absurd h (by simp [parseChain])
  | succ f ih =>
    intro d acc cs v r h
    simp only [parseChain] at h ⊢
    cases hc : chainStep cs with
    | none =>
      rw [hc] at h
      dsimp only at h ⊢
      injection h with h1
      injection h1 with hv hr
      rw [hv, hr]
    | some p =>
      obtain ⟨isAdd, rest⟩ := p
      rw [hc] at h
      dsimp only at h ⊢
      cases ht : parseTerm f rest with
      | none => rw [ht] at h; exact absurd h (by simp)
      | some q =>
        obtain ⟨v1, r1⟩ := q
        rw [ht] at h
        dsimp only at h ⊢
        cases isAdd with
        | false =>
          rw [if_neg (by simp)] at h ⊢
          have h2 := ih d (acc - v1) r1 v r h
          rw [show d + acc - v1 = d + (acc - v1) by ring]
          exact h2
        | true =>
          rw [if_pos rfl] at h ⊢
          have h2 := ih d (acc + v1) r1 v r h
          rw [show d + acc + v1 = d + (acc + v1) by ring]
          exact h2

/-- Full evaluation of a character list by the expression parser. -/
def Evals (cs : List Char) (v : Int) : Prop := ∃ fuel, parseExpr fuel cs = some (v, [])

/-- The tail ds parses as a chain continuation: starting from any
accumulator it consumes all of ds and adds w. -/
def ChainCont (ds : List Char) (w : Int) : Prop :=
  ∃ fuel, ∀ acc : Int, parseChain fuel acc ds = some (acc + w, [])

theorem parseChain_extend : ∀ fuel (acc : Int) cs v, parseChain fuel acc cs = some (v, []) →
    ∀ ds w, ChainCont ds w → ndHead ds →
    ∃ h, parseChain h acc (cs ++ ds) = some (v + w, []) := by
  intro fuel
  induction fuel with
  | zero =>
    intro acc cs v h
    exact absurd h (by simp [parseChain])
  | succ f ih =>
    intro acc cs v h ds w hcont hnd
    simp only [parseChain] at h
    cases hc : chainStep cs with
    | none =>
      rw [hc] at h
      dsimp only at h
      injection h with h1
      injection h1 with hv hr
      subst hr
      obtain ⟨H, hH⟩ := hcont
      exact ⟨H, by simpa [hv] using hH acc⟩
    | some p =>
      obtain ⟨isAdd, rest⟩ := p
      rw [hc] at h
      dsimp only at h
      cases ht : parseTerm f rest with
      | none => rw [ht] at h; exact absurd h (by simp)
      | some q =>
        obtain ⟨v1, r1⟩ := q
        rw [ht] at h
        dsimp only at h
        obtain ⟨h1, hh1⟩ := ih _ r1 v h ds w hcont hnd
        have htA : parseTerm f (rest ++ ds) = some (v1, r1 ++ ds) :=
          (parse_append f).1 rest v1 r1 ds ht (Or.inr hnd)
        refine ⟨max f h1 + 1, ?_⟩
        simp only [parseChain]
        rw [chainStep_append hc]
        dsimp only
        rw [parseTerm_mono (le_max_left f h1) htA]
        dsimp only
        exact parseChain_mono (le_max_right f h1) hh1

theorem chainCont_plus {csB : List Char} {vb : Int} (h : Evals csB vb) :
    ChainCont (' ' :: '+' :: ' ' :: csB) vb := by
  obtain ⟨g, hg⟩ := h
  cases g with
  | zero => exact absurd hg (by simp [parseExpr])
  | succ g0 =>
    simp only [parseExpr] at hg
    cases ht : parseTerm g0 csB with
    | none => rw [ht] at hg; exact absurd hg (by simp)
    | some q =>
      obtain ⟨t0, s0⟩ := q
      rw [ht] at hg
      dsimp only at hg
      refine ⟨g0 + 1, fun acc => ?_⟩
      simp only [parseChain]
      rw [show chainStep (' ' :: '+' :: ' ' :: csB) = some (true, csB) from rfl]
      dsimp only
      rw [ht]
      dsimp only
      rw [if_pos rfl]
      exact parseChain_shift g0 acc t0 s0 vb [] hg

theorem chainCont_minus_num {csB : List Char} {vb : Int} (h : parseNum csB = some (vb, [])) :
    ChainCont (' ' :: '-' :: ' ' :: csB) (-vb) := by
  refine ⟨2, fun acc => ?_⟩
  simp only [parseChain]
  rw [show chainStep (' ' :: '-' :: ' ' :: csB) = some (false, csB) from rfl]
  dsimp only
  rw [show parseTerm 1 csB = parseNum csB from by
    simp only [parseTerm]
    rw [if_neg (parseNum_head_not_lparen h)]]
  rw [h]
  dsimp only
  rw [if_neg (by simp)]
  rw [show chainStep ([] : List Char) = none from rfl]
  dsimp only
  rw [show acc - vb = acc + -vb by ring]

theorem chainCont_minus_paren {csB : List Char} {vb : Int} (h : Evals csB vb) :
    ChainCont (' ' :: '-' :: ' ' :: ('(' :: (csB ++ [')']))) (-vb) := by
  obtain ⟨g, hg⟩ := h
  have hg2 : parseExpr g (csB ++ [')']) = some (vb, [')']) := by
    simpa using (parse_append g).2.2 csB vb [] [')'] hg (Or.inl (by simp))
  refine ⟨g + 2, fun acc => ?_⟩
  simp only [parseChain]
  rw [show chainStep (' ' :: '-' :: ' ' :: ('(' :: (csB ++ [')']))) =
      some (false, '(' :: (csB ++ [')'])) from rfl]
  dsimp only
  have hterm : parseTerm (g + 1) ('(' :: (csB ++ [')'])) = some (vb, []) := by
    simp only [parseTerm, List.head?_cons, List.tail_cons, if_true]
    rw [hg2]
    dsimp only
    rw [if_pos (by simp)]
    simp
  rw [hterm]
  dsimp only
  rw [if_neg (by simp)]
  rw [show chainStep ([] : List Char) = none from rfl]
  dsimp only
  rw [show acc - vb = acc + -vb by ring]

theorem evals_of_parseNum {cs : List Char} {v : Int} (h : parseNum cs = some (v, [])) :
    Evals cs v := by
  refine ⟨2, ?_⟩
  simp only [parseExpr]
  rw [show parseTerm 1 cs = parseNum cs from by
    simp only [parseTerm]
    rw [if_neg (parseNum_head_not_lparen h)]]
  rw [h]
  dsimp only
  rfl

theorem evals_chain_append {csA ds : List Char} {va w : Int}
    (hA : Evals csA va) (hcont : ChainCont ds w) (hnd : ndHead ds) :
    Evals (csA ++ ds) (va + w) := by
  obtain ⟨f, hf⟩ := hA
  cases f with
  | zero => exact absurd hf (by simp [parseExpr])
  | succ f0 =>
    simp only [parseExpr] at hf
    cases ht : parseTerm f0 csA with
    | none => rw [ht] at hf; exact absurd hf (by simp)
    | some q =>
      obtain ⟨v0, r0⟩ := q
      rw [ht] at hf
      dsimp only at hf
      have htA : parseTerm f0 (csA ++ ds) = some (v0, r0 ++ ds) :=
        (parse_append f0).1 csA v0 r0 ds ht (Or.inr hnd)
      obtain ⟨h1, hh1⟩ := parseChain_extend f0 v0 r0 va hf ds w hcont hnd
      refine ⟨max f0 h1 + 1, ?_⟩
      simp only [parseExpr]
      rw [parseTerm_mono (le_max_left _ _) htA]
      dsimp only
      exact parseChain_mono (le_max_right _ _) hh1

theorem evals_add {csA csB : List Char} {va vb : Int} (hA : Evals csA va) (hB : Evals csB vb) :
    Evals (csA ++ (' ' :: '+' :: ' ' :: csB)) (va + vb) :=
  evals_chain_append hA (chainCont_plus hB) (ndHead_cons (by decide))

theorem evals_sub_num {csA csB : List Char} {va vb : Int} (hA : Evals csA va)
    (hB : parseNum csB = some (vb, [])) :
    Evals (csA ++ (' ' :: '-' :: ' ' :: csB)) (va - vb) := by
  have := evals_chain_append hA (chainCont_minus_num hB) (ndHead_cons (by decide))
  rwa [show va + -vb = va - vb by ring] at this

theorem evals_sub_paren {csA csB : List Char} {va vb : Int} (hA : Evals csA va)
    (hB : Evals csB vb) :
    Evals (csA ++ (' ' :: '-' :: ' ' :: ('(' :: (csB ++ [')'])))) (va - vb) := by
  have := evals_chain_append hA (chainCont_minus_paren hB) (ndHead_cons (by decide))
  rwa [show va + -vb = va - vb by ring] at this

theorem parseNum_length {cs : List Char} {v : Int} {r : List Char}
    (h : parseNum cs = some (v, r)) : r.length ≤ cs.length := by
  cases cs with
  | nil => exact absurd h (by simp [parseNum])
  | cons c cs0 =>
    by_cases hc : c = '-'
    · subst hc
      simp only [parseNum] at h
      by_cases htw : cs0.takeWhile Char.isDigit = []
      · rw [if_pos htw] at h
        exact absurd h (by simp)
      · rw [if_neg htw] at h
        injection h with h1
        injection h1 with hv hr
        have := (List.dropWhile_sublist (l := cs0) Char.isDigit).length_le
        rw [hr] at this
        simp only [List.length_cons]
        omega
    · rw [parseNum_not_dash c cs0 hc] at h
      by_cases htw : (c :: cs0).takeWhile Char.isDigit = []
      · rw [if_pos htw] at h
        exact absurd h (by simp)
      · rw [if_neg htw] at h
        injection h with h1
        injection h1 with hv hr
        have := (List.dropWhile_sublist (l := c :: cs0) Char.isDigit).length_le
        rw [hr] at this
        exact this

theorem parse_fuel_bound : ∀ fuel,
    (∀ cs v r, parseTerm fuel cs = some (v, r) →
        r.length ≤ cs.length ∧ parseTerm (2 * (cs.length - r.length) + 1) cs = some (v, r)) ∧
    (∀ acc cs v r, parseChain fuel acc cs = some (v, r) →
        r.length ≤ cs.length ∧ parseChain (2 * (cs.length - r.length) + 1) acc cs = some (v, r)) ∧
    (∀ cs v r, parseExpr fuel cs = some (v, r) →
        r.length ≤ cs.length ∧ parseExpr (2 * (cs.length - r.length) + 2) cs = some (v, r)) := by
  intro fuel
  induction fuel with
  | zero =>
    exact ⟨fun _ _ _ h => absurd h (by simp [parseTerm]),
      fun _ _ _ _ h => absurd h (by simp [parseChain]),
      fun _ _ _ h => absurd h (by simp [parseExpr])⟩
  | succ f ih =>
    obtain ⟨ihT, ihC, ihE⟩ := ih
    refine ⟨?_, ?_, ?_⟩
    · intro cs v r h
      simp only [parseTerm] at h
      by_cases hp : cs.head? = some '('
      · cases cs with
        | nil => simp at hp
        | cons c cs0 =>
          have hc : c = '(' := by simpa using hp
          subst hc
          simp only [List.head?_cons, List.tail_cons, if_true] at h
          cases he : parseExpr f cs0 with
          | none => rw [he] at h; exact absurd h (by simp)
          | some q =>
            obtain ⟨v0, r0⟩ := q
            rw [he] at h
            dsimp only at h
            by_cases hr0 : r0.head? = some ')'
            · rw [if_pos hr0] at h
              injection h with h1
              injection h1 with hv hr
              cases r0 with
              | nil => simp at hr0
              | cons d r1 =>
                have hd : d = ')' := by simpa using hr0
                subst hd
                obtain ⟨hlen, hfe⟩ := ihE cs0 v0 (')' :: r1) he
                simp only [List.length_cons] at hlen hfe ⊢
                simp only [List.tail_cons] at hr
                have hlr : r1.length = r.length := by rw [hr]
                constructor
                · omega
                · have heq : 2 * (cs0.length + 1 - r.length) + 1 =
                      (2 * (cs0.length + 1 - r.length)) + 1 := rfl
                  rw [heq]
                  simp only [parseTerm, List.head?_cons, List.tail_cons, if_true]
                  rw [parseExpr_mono (by omega) hfe]
                  dsimp only
                  rw [if_pos (by simp)]
                  simp [hr, hv]
            · rw [if_neg hr0] at h
              exact absurd h (by simp)
      · rw [if_neg hp] at h
        refine ⟨parseNum_length h, ?_⟩
        simp only [parseTerm]
        rw [if_neg hp]
        exact h
    · intro acc cs v r h
      simp only [parseChain] at h
      cases hc : chainStep cs with
      | none =>
        rw [hc] at h
        dsimp only at h
        injection h with h1
        injection h1 with hv hr
        subst hv
        subst hr
        refine ⟨le_refl _, ?_⟩
        simp only [Nat.sub_self, Nat.mul_zero, Nat.zero_add]
        simp only [parseChain]
        rw [hc]
      | some p =>
        obtain ⟨isAdd, rest⟩ := p
        rw [hc] at h
        dsimp only at h
        cases ht : parseTerm f rest with
        | none => rw [ht] at h; exact absurd h (by simp)
        | some q =>
          obtain ⟨v1, r1⟩ := q
          rw [ht] at h
          dsimp only at h
          obtain ⟨hlen1, hft⟩ := ihT rest v1 r1 ht
          obtain ⟨hlen2, hfc⟩ := ihC _ r1 v r h
          have hcslen : cs.length = rest.length + 3 := by
            rcases chainStep_eq_some hc with ⟨hb, hcs⟩ | ⟨hb, hcs⟩ <;> subst hcs <;> simp
          constructor
          · omega
          · have heq : 2 * (cs.length - r.length) + 1 =
                (2 * (cs.length - r.length)) + 1 := rfl
            rw [heq]
            simp only [parseChain]
            rw [hc]
            dsimp only
            rw [parseTerm_mono (by omega) hft]
            dsimp only
            exact parseChain_mono (by omega) hfc
    · intro cs v r h
      simp only [parseExpr] at h
      cases ht : parseTerm f cs with
      | none => rw [ht] at h; exact absurd h (by simp)
      | some q =>
        obtain ⟨v0, r0⟩ := q
        rw [ht] at h
        dsimp only at h
        obtain ⟨hlen1, hft⟩ := ihT cs v0 r0 ht
        obtain ⟨hlen2, hfc⟩ := ihC v0 r0 v r h
        constructor
        · omega
        · have heq : 2 * (cs.length - r.length) + 2 =
              (2 * (cs.length - r.length) + 1) + 1 := rfl
          rw [heq]
          simp only [parseExpr]
          rw [parseTerm_mono (by omega) hft]
          dsimp only
          exact parseChain_mono (by omega) hfc

theorem evalString_of_evals {s : String} {v : Int} (h : Evals s.data v) :
    evalString s = some v := by
  obtain ⟨fuel, hf⟩ := h
  obtain ⟨hlen, hfe⟩ := (parse_fuel_bound fuel).2.2 s.data v [] hf
  have : parseExpr (2 * s.data.length + 2) s.data = some (v, []) := by
    have hle : 2 * (s.data.length - ([] : List Char).length) + 2 ≤ 2 * s.data.length + 2 := by
      simp
    exact parseExpr_mono hle hfe
  unfold evalString
  rw [this]

/-! ### Lemmas: the used-digit mask test -/

theorem lor_eq_xor_iff (a b : Nat) : (a ||| b) = (a ^^^ b) ↔ a &&& b = 0 := by
  constructor
  · intro h
    apply Nat.eq_of_testBit_eq
    intro i
    have hbit := congrArg (fun n => n.testBit i) h
    simp only [Nat.testBit_or, Nat.testBit_xor] at hbit
    simp only [Nat.testBit_and, Nat.zero_testBit]
    cases ha : a.testBit i <;> cases hb : b.testBit i <;> simp_all
  · intro h
    apply Nat.eq_of_testBit_eq
    intro i
    have hbit := congrArg (fun n => n.testBit i) h
    simp only [Nat.testBit_and, Nat.zero_testBit] at hbit
    simp only [Nat.testBit_or, Nat.testBit_xor]
    cases ha : a.testBit i <;> cases hb : b.testBit i <;> simp_all

theorem haveRepeatingDigits_eq_true_iff (s t : Segment) :
    Segment.haveRepeatingDigits s t = true ↔ s.usedDigits &&& t.usedDigits ≠ 0 := by
  unfold Segment.haveRepeatingDigits
  rw [bne_iff_ne]
  exact not_congr (lor_eq_xor_iff _ _)

theorem haveRepeatingDigits_eq_false_iff (s t : Segment) :
    Segment.haveRepeatingDigits s t = false ↔ s.usedDigits &&& t.usedDigits = 0 := by
  rw [← Bool.not_eq_true, not_congr (haveRepeatingDigits_eq_true_iff s t)]
  simp

theorem haveRepeatingDigits_comm (s t : Segment) :
    Segment.haveRepeatingDigits s t = Segment.haveRepeatingDigits t s := by
  unfold Segment.haveRepeatingDigits
  rw [Nat.lor_comm, Nat.xor_comm]

/-! ### Popcount on four-bit masks, for the convergence argument -/

def popCount4 (n : Nat) : Nat := n % 2 + n / 2 % 2 + n / 4 % 2 + n / 8 % 2

theorem popCount4_le (n : Nat) (h : n < 16) : popCount4 n ≤ 4 := by
  interval_cases n <;> decide

theorem popCount4_pos (n : Nat) (h : n < 16) (h0 : n ≠ 0) : 1 ≤ popCount4 n := by
  interval_cases n <;> first | exact absurd rfl h0 | decide

theorem popCount4_lor (a b : Nat) (ha : a < 16) (hb : b < 16) (hd : a &&& b = 0) :
    popCount4 (a ||| b) = popCount4 a + popCount4 b := by
  interval_cases a <;> interval_cases b <;> revert hd <;> decide

theorem lor_lt_16 (a b : Nat) (ha : a < 16) (hb : b < 16) : a ||| b < 16 := by
  interval_cases a <;> interval_cases b <;> decide

theorem lor_ne_zero (a b : Nat) (ha : a < 16) (hb : b < 16) (h0 : a ≠ 0) : a ||| b ≠ 0 := by
  interval_cases a <;> first | exact absurd rfl h0 | interval_cases b <;> decide

theorem popCount4_eq_four (m : Nat) (h : m < 16) (h4 : 4 ≤ popCount4 m) : m = 15 := by
  interval_cases m <;> revert h4 <;> decide

theorem mask_full_overlap (m : Nat) (h : m < 16) (h0 : m ≠ 0) : 15 &&& m ≠ 0 := by
  interval_cases m <;> first | exact absurd rfl h0 | decide

/-! ### Field lemmas for the Segment operations -/

namespace Segment

@[simp] theorem setValue_expressions (s : Segment) (v : Int) :
    (s.setValue v).expressions = s.expressions := by
  unfold setValue
  split <;> rfl

@[simp] theorem setValue_value (s : Segment) (v : Int) : (s.setValue v).value = v := by
  unfold setValue
  split <;> rfl

@[simp] theorem setValue_usedDigits (s : Segment) (v : Int) :
    (s.setValue v).usedDigits = s.usedDigits := by
  unfold setValue
  split <;> rfl

@[simp] theorem setValue_isValid (s : Segment) (v : Int) : (s.setValue v).isValid = s.isValid := by
  unfold setValue
  split <;> rfl

@[simp] theorem setValue_isNumber (s : Segment) (v : Int) :
    (s.setValue v).isNumber = s.isNumber := by
  unfold setValue
  split <;> rfl

@[simp] theorem setValue_isComplete (s : Segment) (v : Int) :
    (s.setValue v).isComplete = s.isComplete := by
  unfold setValue
  split <;> rfl

@[simp] theorem setValue_isCommutative (s : Segment) (v : Int) :
    (s.setValue v).isCommutative = s.isCommutative := by
  unfold setValue
  split <;> rfl

@[simp] theorem setValue_isDistributive (s : Segment) (v : Int) :
    (s.setValue v).isDistributive = s.isDistributive := by
  unfold setValue
  split <;> rfl

theorem setValue_isSolution (s : Segment) (v : Int) :
    (s.setValue v).isSolution =
      (s.isSolution || (s.isComplete && decide ((0 : Int) < v) && decide (v ≤ 100))) := by
  unfold setValue
  by_cases h : (s.isComplete && decide ((0 : Int) < v) && decide (v ≤ 100)) = true
  · rw [if_pos h, h]
    simp
  · rw [if_neg h]
    simp only [Bool.not_eq_true] at h
    rw [h]
    simp

@[simp] theorem addExpression_value (s : Segment) (t : String) :
    (s.addExpression t).value = s.value := by
  unfold addExpression
  split <;> rfl

@[simp] theorem addExpression_usedDigits (s : Segment) (t : String) :
    (s.addExpression t).usedDigits = s.usedDigits := by
  unfold addExpression
  split <;> rfl

@[simp] theorem addExpression_isValid (s : Segment) (t : String) :
    (s.addExpression t).isValid = s.isValid := by
  unfold addExpression
  split <;> rfl

@[simp] theorem addExpression_isNumber (s : Segment) (t : String) :
    (s.addExpression t).isNumber = s.isNumber := by
  unfold addExpression
  split <;> rfl

@[simp] theorem addExpression_isComplete (s : Segment) (t : String) :
    (s.addExpression t).isComplete = s.isComplete := by
  unfold addExpression
  split <;> rfl

@[simp] theorem addExpression_isSolution (s : Segment) (t : String) :
    (s.addExpression t).isSolution = s.isSolution := by
  unfold addExpression
  split <;> rfl

@[simp] theorem addExpression_isCommutative (s : Segment) (t : String) :
    (s.addExpression t).isCommutative = s.isCommutative := by
  unfold addExpression
  split <;> rfl

@[simp] theorem addExpression_isDistributive (s : Segment) (t : String) :
    (s.addExpression t).isDistributive = s.isDistributive := by
  unfold addExpression
  split <;> rfl

theorem mem_addExpression (s : Segment) (t e : String) :
    e ∈ (s.addExpression t).expressions ↔ e ∈ s.expressions ∨ e = t := by
  unfold addExpression
  split
  next hmem =>
    constructor
    · exact Or.inl
    · rintro (h | rfl)
      · exact h
      · exact hmem
  next hmem =>
    simp [List.mem_append]

theorem addExpression_ne_nil (s : Segment) (t : String) :
    (s.addExpression t).expressions ≠ [] := by
  intro hnil
  have : t ∈ (s.addExpression t).expressions := (mem_addExpression s t t).mpr (Or.inr rfl)
  rw [hnil] at this
  simp at this

end Segment

/-! ### Generic lemmas about the expression-collecting folds -/

theorem foldl_segment_preserve {α : Type} (P : Segment → Prop) (f : Segment → α → Segment)
    (hf : ∀ s x, P s → P (f s x)) :
    ∀ (l : List α) (init : Segment), P init → P (l.foldl f init) := by
  intro l
  induction l with
  | nil => exact fun init h => h
  | cons x l ih => exact fun init h => ih (f init x) (hf init x h)

theorem foldl2_mem (g : Segment → String → String → Segment) (mk : String → String → List String)
    (hg : ∀ s x y e, e ∈ (g s x y).expressions ↔ e ∈ s.expressions ∨ e ∈ mk x y) :
    ∀ (la lb : List String) (init : Segment) (e : String),
      e ∈ (la.foldl (fun s x => lb.foldl (fun s y => g s x y) s) init).expressions ↔
        e ∈ init.expressions ∨ ∃ x ∈ la, ∃ y ∈ lb, e ∈ mk x y := by
  have inner : ∀ (lb : List String) (x : String) (init : Segment) (e : String),
      e ∈ (lb.foldl (fun s y => g s x y) init).expressions ↔
        e ∈ init.expressions ∨ ∃ y ∈ lb, e ∈ mk x y := by
    intro lb
    induction lb with
    | nil => intro x init e; simp
    | cons y lb ih =>
      intro x init e
      rw [List.foldl_cons, ih, hg]
      simp only [List.mem_cons]
      constructor
      · rintro ((h | h) | ⟨y1, hy1, h⟩)
        · exact Or.inl h
        · exact Or.inr ⟨y, Or.inl rfl, h⟩
        · exact Or.inr ⟨y1, Or.inr hy1, h⟩
      · rintro (h | ⟨y1, (rfl | hy1), h⟩)
        · exact Or.inl (Or.inl h)
        · exact Or.inl (Or.inr h)
        · exact Or.inr ⟨y1, hy1, h⟩
  intro la
  induction la with
  | nil => intro lb init e; simp
  | cons x la ih =>
    intro lb init e
    rw [List.foldl_cons, ih, inner]
    simp only [List.mem_cons]
    constructor
    · rintro ((h | ⟨y, hy, h⟩) | ⟨x1, hx1, hrest⟩)
      · exact Or.inl h
      · exact Or.inr ⟨x, Or.inl rfl, y, hy, h⟩
      · exact Or.inr ⟨x1, Or.inr hx1, hrest⟩
    · rintro (h | ⟨x1, (rfl | hx1), y, hy, h⟩)
      · exact Or.inl (Or.inl h)
      · exact Or.inl (Or.inr ⟨y, hy, h⟩)
      · exact Or.inr ⟨x1, hx1, y, hy, h⟩

/-! ### Characterisation of the Combination constructor -/

namespace Combination

theorem comb_make_isValid (a b : Segment) :
    (make a b).isValid =
      (!Segment.haveRepeatingDigits a b && a.isNumber && b.isNumber &&
        decide (a.value ≠ 0) && !decide (a.usedDigits ||| b.usedDigits = 15)) := by
  unfold make baseSegment
  dsimp only
  split
  next h => simpa using h
  next h => simpa using h

theorem comb_make_usedDigits (a b : Segment) :
    (make a b).usedDigits = a.usedDigits ||| b.usedDigits := by
  unfold make baseSegment
  dsimp only
  split
  next => simp
  next => rfl

theorem comb_make_isDistributive (a b : Segment) : (make a b).isDistributive = false := by
  unfold make baseSegment
  dsimp only
  split
  next => simp
  next => rfl

theorem comb_make_isComplete (a b : Segment) :
    (make a b).isComplete = decide (a.usedDigits ||| b.usedDigits = 15) := by
  unfold make baseSegment
  dsimp only
  split
  next => simp
  next => rfl

theorem comb_make_isNumber_eq_isValid (a b : Segment) : (make a b).isNumber = (make a b).isValid := by
  unfold make baseSegment
  dsimp only
  split
  next => simp
  next => rfl

theorem comb_make_valid_spec (a b : Segment) (h : (make a b).isValid = true) :
    (make a b).value = a.value * 10 ^ (intToString b.value).length + b.value ∧
    (make a b).expressions =
      [intToString (a.value * 10 ^ (intToString b.value).length + b.value)] ∧
    (make a b).isSolution = false := by
  have hcond := (comb_make_isValid a b) ▸ h
  unfold make baseSegment
  dsimp only
  rw [if_pos hcond]
  refine ⟨by simp, ?_, ?_⟩
  · rw [Segment.setValue_expressions]
    unfold Segment.addExpression
    simp
  · rw [Segment.setValue_isSolution]
    simp only [Segment.addExpression_isSolution, Segment.addExpression_isComplete]
    simp only [Bool.and_eq_true, Bool.not_eq_true'] at hcond
    rw [hcond.2]
    simp

theorem comb_make_isSolution (a b : Segment) : (make a b).isSolution = false := by
  by_cases h : (make a b).isValid = true
  · exact (comb_make_valid_spec a b h).2.2
  · unfold make baseSegment at h ⊢
    dsimp only at h ⊢
    split at h
    next hc => split <;> simp_all
    next hc => rw [if_neg hc]

end Combination

theorem iterateExpressions_fields (a b : Segment) (g : Segment → String → String → Segment)
    (hg : ∀ s x y, (g s x y).value = s.value ∧ (g s x y).usedDigits = s.usedDigits ∧
        (g s x y).isValid = s.isValid ∧ (g s x y).isNumber = s.isNumber ∧
        (g s x y).isComplete = s.isComplete ∧ (g s x y).isSolution = s.isSolution ∧
        (g s x y).isCommutative = s.isCommutative ∧ (g s x y).isDistributive = s.isDistributive)
    (init : Segment) :
    (Segment.iterateExpressions a b g init).value = init.value ∧
    (Segment.iterateExpressions a b g init).usedDigits = init.usedDigits ∧
    (Segment.iterateExpressions a b g init).isValid = init.isValid ∧
    (Segment.iterateExpressions a b g init).isNumber = init.isNumber ∧
    (Segment.iterateExpressions a b g init).isComplete = init.isComplete ∧
    (Segment.iterateExpressions a b g init).isSolution = init.isSolution ∧
    (Segment.iterateExpressions a b g init).isCommutative = init.isCommutative ∧
    (Segment.iterateExpressions a b g init).isDistributive = init.isDistributive := by
  unfold Segment.iterateExpressions
  refine foldl_segment_preserve
    (fun s => s.value = init.value ∧ s.usedDigits = init.usedDigits ∧ s.isValid = init.isValid ∧
      s.isNumber = init.isNumber ∧ s.isComplete = init.isComplete ∧
      s.isSolution = init.isSolution ∧ s.isCommutative = init.isCommutative ∧
      s.isDistributive = init.isDistributive)
    _ ?_ a.expressions init ⟨rfl, rfl, rfl, rfl, rfl, rfl, rfl, rfl⟩
  intro s x hP
  refine foldl_segment_preserve
    (fun s => s.value = init.value ∧ s.usedDigits = init.usedDigits ∧ s.isValid = init.isValid ∧
      s.isNumber = init.isNumber ∧ s.isComplete = init.isComplete ∧
      s.isSolution = init.isSolution ∧ s.isCommutative = init.isCommutative ∧
      s.isDistributive = init.isDistributive) _ ?_ b.expressions s hP
  intro s2 y hP2
  obtain ⟨h1, h2, h3, h4, h5, h6, h7, h8⟩ := hg s2 x y
  exact ⟨h1.trans hP2.1, h2.trans hP2.2.1, h3.trans hP2.2.2.1, h4.trans hP2.2.2.2.1,
    h5.trans hP2.2.2.2.2.1, h6.trans hP2.2.2.2.2.2.1, h7.trans hP2.2.2.2.2.2.2.1,
    h8.trans hP2.2.2.2.2.2.2.2⟩

/-! ### Characterisation of the Addition constructor -/

namespace Addition

theorem add_make_fields (a b : Segment) :
    (make a b).value = a.value + b.value ∧
    (make a b).usedDigits = a.usedDigits ||| b.usedDigits ∧
    (make a b).isComplete = decide (a.usedDigits ||| b.usedDigits = 15) ∧
    (make a b).isDistributive = true ∧
    (make a b).isCommutative = true ∧
    (make a b).isSolution = (decide (a.usedDigits ||| b.usedDigits = 15) &&
        decide ((0 : Int) < a.value + b.value) && decide (a.value + b.value ≤ 100)) := by
  unfold make baseSegment
  dsimp only
  split
  next h =>
    obtain ⟨h1, h2, _, _, h5, h6, h7, h8⟩ :=
      iterateExpressions_fields a b
        (fun s expressionA expressionB =>
          (s.addExpression (expressionA ++ " + " ++ expressionB)).addExpression
            (expressionB ++ " + " ++ expressionA))
        (fun s x y => by simp) _
    rw [h1, h2, h5, h6, h7, h8]
    refine ⟨by simp, by simp, by simp, by simp, by simp, ?_⟩
    simp [Segment.setValue_isSolution]
  next h =>
    refine ⟨by simp, by simp, by simp, by simp, by simp, ?_⟩
    simp [Segment.setValue_isSolution]

theorem add_make_isValid (a b : Segment) :
    (make a b).isValid = (!Segment.haveRepeatingDigits a b &&
      ((decide (a.usedDigits ||| b.usedDigits = 15) &&
          (decide (a.usedDigits ||| b.usedDigits = 15) &&
            decide ((0 : Int) < a.value + b.value) && decide (a.value + b.value ≤ 100))) ||
        !decide (a.usedDigits ||| b.usedDigits = 15))) := by
  unfold make baseSegment
  dsimp only
  split
  next h =>
    obtain ⟨_, _, h3, _, _, _, _, _⟩ :=
      iterateExpressions_fields a b
        (fun s expressionA expressionB =>
          (s.addExpression (expressionA ++ " + " ++ expressionB)).addExpression
            (expressionB ++ " + " ++ expressionA))
        (fun s x y => by simp) _
    rw [h3]
    show true = _
    rw [eq_comm]
    rw [Segment.setValue_isSolution, Segment.setValue_isComplete] at h
    simpa using h
  next h =>
    simp only [Bool.not_eq_true] at h
    rw [Segment.setValue_isSolution, Segment.setValue_isComplete] at h
    rw [Segment.setValue_isValid]
    show false = _
    rw [eq_comm]
    simpa using h

theorem add_make_isValid_iff (a b : Segment) :
    (make a b).isValid = true ↔
      (a.usedDigits &&& b.usedDigits = 0 ∧
        (a.usedDigits ||| b.usedDigits = 15 →
          (0 < a.value + b.value ∧ a.value + b.value ≤ 100))) := by
  rw [add_make_isValid]
  simp only [Bool.and_eq_true, Bool.not_eq_true', Bool.or_eq_true, haveRepeatingDigits_eq_false_iff]
  by_cases hC : a.usedDigits ||| b.usedDigits = 15 <;> simp [hC]

theorem add_make_mem_expressions (a b : Segment) (h : (make a b).isValid = true) (e : String) :
    e ∈ (make a b).expressions ↔
      ∃ x ∈ a.expressions, ∃ y ∈ b.expressions,
        e = x ++ " + " ++ y ∨ e = y ++ " + " ++ x := by
  have hcond := h
  unfold make baseSegment at hcond ⊢
  dsimp only at hcond ⊢
  split at hcond
  next hc =>
    rw [if_pos hc]
    unfold Segment.iterateExpressions
    rw [foldl2_mem
      (fun s expressionA expressionB =>
        (s.addExpression (expressionA ++ " + " ++ expressionB)).addExpression
          (expressionB ++ " + " ++ expressionA))
      (fun x y => [x ++ " + " ++ y, y ++ " + " ++ x])
      (fun s x y e => by
        rw [Segment.mem_addExpression, Segment.mem_addExpression]
        simp only [List.mem_cons, List.mem_singleton, List.not_mem_nil, or_false]
        tauto)]
    simp
  next hc =>
    rw [if_neg hc]
    rw [Segment.setValue_isValid] at hcond
    simp at hcond

theorem add_make_expressions_ne_nil (a b : Segment) (h : (make a b).isValid = true)
    (ha : a.expressions ≠ []) (hb : b.expressions ≠ []) : (make a b).expressions ≠ [] := by
  obtain ⟨x, hx⟩ := List.exists_mem_of_ne_nil _ ha
  obtain ⟨y, hy⟩ := List.exists_mem_of_ne_nil _ hb
  have hmem : (x ++ " + " ++ y) ∈ (make a b).expressions :=
    (add_make_mem_expressions a b h _).mpr ⟨x, hx, y, hy, Or.inl rfl⟩
  intro hnil
  rw [hnil] at hmem
  simp at hmem

end Addition

/-! ### Characterisation of the Subtraction constructor -/

namespace Subtraction

theorem sub_make_fields (a b : Segment) :
    (make a b).value = a.value - b.value ∧
    (make a b).usedDigits = a.usedDigits ||| b.usedDigits ∧
    (make a b).isComplete = decide (a.usedDigits ||| b.usedDigits = 15) ∧
    (make a b).isDistributive = true ∧
    (make a b).isCommutative = false ∧
    (make a b).isSolution = (decide (a.usedDigits ||| b.usedDigits = 15) &&
        decide ((0 : Int) < a.value - b.value) && decide (a.value - b.value ≤ 100)) := by
  unfold make baseSegment
  dsimp only
  split
  next h =>
    obtain ⟨h1, h2, _, _, h5, h6, h7, h8⟩ :=
      iterateExpressions_fields a b
        (fun s expressionA expressionB =>
          s.addExpression (expressionA ++ " - " ++
            (if b.isDistributive then "(" ++ expressionB ++ ")" else expressionB)))
        (fun s x y => by simp) _
    rw [h1, h2, h5, h6, h7, h8]
    refine ⟨by simp, by simp, by simp, by simp, by simp, ?_⟩
    simp [Segment.setValue_isSolution]
  next h =>
    refine ⟨by simp, by simp, by simp, by simp, by simp, ?_⟩
    simp [Segment.setValue_isSolution]

theorem sub_make_isValid (a b : Segment) :
    (make a b).isValid = (!Segment.haveRepeatingDigits a b &&
      ((decide (a.usedDigits ||| b.usedDigits = 15) &&
          (decide (a.usedDigits ||| b.usedDigits = 15) &&
            decide ((0 : Int) < a.value - b.value) && decide (a.value - b.value ≤ 100))) ||
        !decide (a.usedDigits ||| b.usedDigits = 15))) := by
  unfold make baseSegment
  dsimp only
  split
  next h =>
    obtain ⟨_, _, h3, _, _, _, _, _⟩ :=
      iterateExpressions_fields a b
        (fun s expressionA expressionB =>
          s.addExpression (expressionA ++ " - " ++
            (if b.isDistributive then "(" ++ expressionB ++ ")" else expressionB)))
        (fun s x y => by simp) _
    rw [h3]
    show true = _
    rw [eq_comm]
    rw [Segment.setValue_isSolution, Segment.setValue_isComplete] at h
    simpa using h
  next h =>
    simp only [Bool.not_eq_true] at h
    rw [Segment.setValue_isSolution, Segment.setValue_isComplete] at h
    rw [Segment.setValue_isValid]
    show false = _
    rw [eq_comm]
    simpa using h

theorem sub_make_isValid_iff (a b : Segment) :
    (make a b).isValid = true ↔
      (a.usedDigits &&& b.usedDigits = 0 ∧
        (a.usedDigits ||| b.usedDigits = 15 →
          (0 < a.value - b.value ∧ a.value - b.value ≤ 100))) := by
  rw [sub_make_isValid]
  simp only [Bool.and_eq_true, Bool.not_eq_true', Bool.or_eq_true, haveRepeatingDigits_eq_false_iff]
  by_cases hC : a.usedDigits ||| b.usedDigits = 15 <;> simp [hC]

theorem sub_make_mem_expressions (a b : Segment) (h : (make a b).isValid = true) (e : String) :
    e ∈ (make a b).expressions ↔
      ∃ x ∈ a.expressions, ∃ y ∈ b.expressions,
        e = x ++ " - " ++ (if b.isDistributive then "(" ++ y ++ ")" else y) := by
  have hcond := h
  unfold make baseSegment at hcond ⊢
  dsimp only at hcond ⊢
  split at hcond
  next hc =>
    rw [if_pos hc]
    unfold Segment.iterateExpressions
    rw [foldl2_mem
      (fun s expressionA expressionB =>
        s.addExpression (expressionA ++ " - " ++
          (if b.isDistributive then "(" ++ expressionB ++ ")" else expressionB)))
      (fun x y => [x ++ " - " ++ (if b.isDistributive then "(" ++ y ++ ")" else y)])
      (fun s x y e => by
        rw [Segment.mem_addExpression]
        simp only [List.mem_singleton])]
    simp
  next hc =>
    rw [if_neg hc]
    rw [Segment.setValue_isValid] at hcond
    simp at hcond

theorem sub_make_expressions_ne_nil (a b : Segment) (h : (make a b).isValid = true)
    (ha : a.expressions ≠ []) (hb : b.expressions ≠ []) : (make a b).expressions ≠ [] := by
  obtain ⟨x, hx⟩ := List.exists_mem_of_ne_nil _ ha
  obtain ⟨y, hy⟩ := List.exists_mem_of_ne_nil _ hb
  have hmem : (x ++ " - " ++ (if b.isDistributive then "(" ++ y ++ ")" else y)) ∈
      (make a b).expressions :=
    (sub_make_mem_expressions a b h _).mpr ⟨x, hx, y, hy, rfl⟩
  intro hnil
  rw [hnil] at hmem
  simp at hmem

end Subtraction

/-! ### Characterisation of the DigitSegment constructor -/

namespace DigitSegment

theorem digit_make_ok (digit index : Int) (h0 : 0 ≤ index) (h3 : index ≤ 3) :
    make digit index = Except.ok
      { expressions := [intToString digit], value := digit, usedDigits := 2 ^ index.toNat,
        isValid := true, isNumber := true, isComplete := false, isSolution := false,
        isCommutative := false, isDistributive := false } := by
  unfold make
  dsimp only
  split
  next hcond =>
    simp only [Bool.or_eq_true, decide_eq_true_eq] at hcond
    omega
  next hcond =>
    simp [Segment.addExpression, Segment.setValue]

theorem digit_make_err (digit index : Int) (h : index < 0 ∨ 3 < index) :
    make digit index = Except.error "Invalid digit index argument." := by
  unfold make
  dsimp only
  split
  next => rfl
  next hcond =>
    simp only [Bool.or_eq_true, decide_eq_true_eq] at hcond
    omega

end DigitSegment

/-! ### Lemmas about the duplicate test and the primary text -/

namespace Segment

theorem equals_iff (s t : Segment) :
    s.equals t = true ↔ s.value = t.value ∧ ∃ e ∈ s.expressions, e ∈ t.expressions := by
  unfold equals
  simp [List.any_eq_true]

theorem equals_comm (s t : Segment) : s.equals t = t.equals s := by
  rw [Bool.eq_iff_iff, equals_iff, equals_iff]
  constructor
  · rintro ⟨hv, e, he1, he2⟩
    exact ⟨hv.symm, e, he2, he1⟩
  · rintro ⟨hv, e, he1, he2⟩
    exact ⟨hv.symm, e, he2, he1⟩

theorem equals_refl (s : Segment) (h : s.expressions ≠ []) : s.equals s = true := by
  obtain ⟨e, he⟩ := List.exists_mem_of_ne_nil _ h
  exact (equals_iff s s).mpr ⟨rfl, e, he, he⟩

theorem str_mem (s : Segment) (h : s.expressions ≠ []) : s.str ∈ s.expressions := by
  unfold str
  cases hl : s.expressions with
  | nil => exact absurd hl h
  | cons e l => simp

end Segment

/-! ### The registry invariant -/

/-- Well-formedness of a segment held in the Calculator registry: it is
valid, it has at least one text, its mask is a nonzero four-bit mask,
every recorded text evaluates to the stored value, texts of
non-distributive segments are bare numerals, and a solution flag implies
the value range. -/
def GoodSeg (s : Segment) : Prop :=
  s.isValid = true ∧
  s.expressions ≠ [] ∧
  s.usedDigits ≠ 0 ∧
  s.usedDigits < 16 ∧
  (∀ e ∈ s.expressions, Evals e.data s.value) ∧
  (s.isDistributive = false → ∀ e ∈ s.expressions, parseNum e.data = some (s.value, [])) ∧
  (s.isSolution = true → 0 < s.value ∧ s.value ≤ 100)

def GoodAll (segs : List Segment) : Prop := ∀ s ∈ segs, GoodSeg s

theorem goodAll_append {segs segs2 : List Segment} (h1 : GoodAll segs) (h2 : GoodAll segs2) :
    GoodAll (segs ++ segs2) := by
  intro s hs
  rcases List.mem_append.mp hs with h | h
  · exact h1 s h
  · exact h2 s h

theorem parseNum_intToString_nil (v : Int) : parseNum (intToString v).data = some (v, []) := by
  have := parseNum_intToString v [] ndHead_nil
  simpa using this

theorem evals_intToString (v : Int) : Evals (intToString v).data v :=
  evals_of_parseNum (parseNum_intToString_nil v)

theorem data_plus (x y : String) :
    (x ++ " + " ++ y).data = x.data ++ (' ' :: '+' :: ' ' :: y.data) := by
  rw [String.data_append, String.data_append]
  rw [show (" + ").data = [' ', '+', ' '] from rfl, List.append_assoc]
  rfl

theorem data_minus (x y : String) :
    (x ++ " - " ++ y).data = x.data ++ (' ' :: '-' :: ' ' :: y.data) := by
  rw [String.data_append, String.data_append]
  rw [show (" - ").data = [' ', '-', ' '] from rfl, List.append_assoc]
  rfl

theorem data_minus_paren (x y : String) :
    (x ++ " - " ++ ("(" ++ y ++ ")")).data =
      x.data ++ (' ' :: '-' :: ' ' :: ('(' :: (y.data ++ [')']))) := by
  rw [data_minus, String.data_append, String.data_append]
  rw [show ("(").data = ['('] from rfl, show (")").data = [')'] from rfl]
  rfl

theorem addition_make_good (a b : Segment) (ha : GoodSeg a) (hb : GoodSeg b)
    (h : (Addition.make a b).isValid = true) : GoodSeg (Addition.make a b) := by
  obtain ⟨hval, husd, hcmp, hdst, hcom, hsol⟩ := Addition.add_make_fields a b
  refine ⟨h, Addition.add_make_expressions_ne_nil a b h ha.2.1 hb.2.1, ?_, ?_, ?_, ?_, ?_⟩
  · rw [husd]
    exact lor_ne_zero _ _ ha.2.2.2.1 hb.2.2.2.1 ha.2.2.1
  · rw [husd]
    exact lor_lt_16 _ _ ha.2.2.2.1 hb.2.2.2.1
  · intro e he
    rw [Addition.add_make_mem_expressions a b h] at he
    obtain ⟨x, hx, y, hy, hxy | hxy⟩ := he
    · rw [hxy, data_plus, hval]
      exact evals_add (ha.2.2.2.2.1 x hx) (hb.2.2.2.2.1 y hy)
    · rw [hxy, data_plus, hval, Int.add_comm]
      exact evals_add (hb.2.2.2.2.1 y hy) (ha.2.2.2.2.1 x hx)
  · intro hfalse
    rw [hdst] at hfalse
    exact absurd hfalse (by simp)
  · intro hs
    rw [hs] at hsol
    rw [hval]
    have := hsol.symm
    simp only [Bool.and_eq_true, decide_eq_true_eq] at this
    exact ⟨this.1.2, this.2⟩

theorem subtraction_make_good (a b : Segment) (ha : GoodSeg a) (hb : GoodSeg b)
    (h : (Subtraction.make a b).isValid = true) : GoodSeg (Subtraction.make a b) := by
  obtain ⟨hval, husd, hcmp, hdst, hcom, hsol⟩ := Subtraction.sub_make_fields a b
  refine ⟨h, Subtraction.sub_make_expressions_ne_nil a b h ha.2.1 hb.2.1, ?_, ?_, ?_, ?_, ?_⟩
  · rw [husd]
    exact lor_ne_zero _ _ ha.2.2.2.1 hb.2.2.2.1 ha.2.2.1
  · rw [husd]
    exact lor_lt_16 _ _ ha.2.2.2.1 hb.2.2.2.1
  · intro e he
    rw [Subtraction.sub_make_mem_expressions a b h] at he
    obtain ⟨x, hx, y, hy, hxy⟩ := he
    by_cases hd : b.isDistributive = true
    · rw [hxy, if_pos hd, data_minus_paren, hval]
      exact evals_sub_paren (ha.2.2.2.2.1 x hx) (hb.2.2.2.2.1 y hy)
    · have hd2 : b.isDistributive = false := by simpa using hd
      rw [hxy, if_neg hd, data_minus, hval]
      exact evals_sub_num (ha.2.2.2.2.1 x hx) (hb.2.2.2.2.2.1 hd2 y hy)
  · intro hfalse
    rw [hdst] at hfalse
    exact absurd hfalse (by simp)
  · intro hs
    rw [hs] at hsol
    rw [hval]
    have := hsol.symm
    simp only [Bool.and_eq_true, decide_eq_true_eq] at this
    exact ⟨this.1.2, this.2⟩

theorem combination_make_good (a b : Segment)
    (ha0 : a.usedDigits ≠ 0) (ha16 : a.usedDigits < 16)
    (hb16 : b.usedDigits < 16)
    (h : (Combination.make a b).isValid = true) : GoodSeg (Combination.make a b) := by
  obtain ⟨hval, hexp, hsol⟩ := Combination.comb_make_valid_spec a b h
  refine ⟨h, ?_, ?_, ?_, ?_, ?_, ?_⟩
  · rw [hexp]
    simp
  · rw [Combination.comb_make_usedDigits]
    exact lor_ne_zero _ _ ha16 hb16 ha0
  · rw [Combination.comb_make_usedDigits]
    exact lor_lt_16 _ _ ha16 hb16
  · intro e he
    rw [hexp, List.mem_singleton] at he
    rw [he, hval]
    exact evals_intToString _
  · intro _ e he
    rw [hexp, List.mem_singleton] at he
    rw [he, hval]
    exact parseNum_intToString_nil _
  · intro hs
    rw [Combination.comb_make_isSolution] at hs
    exact absurd hs (by simp)

theorem foldl_preserve_mem {α β : Type} (P : β → Prop) :
    ∀ (l : List α) (f : β → α → β),
      (∀ acc x, x ∈ l → P acc → P (f acc x)) → ∀ init, P init → P (l.foldl f init) := by
  intro l
  induction l with
  | nil => exact fun f _ init h => h
  | cons x l ih =>
    intro f hf init h
    exact ih f (fun acc y hy hP => hf acc y (by simp [hy]) hP) (f init x)
      (hf init x (by simp) h)

theorem goodSeg_digit (d idx : Int) (h0 : 0 ≤ idx) (h3 : idx ≤ 3) :
    GoodSeg
      { expressions := [intToString d], value := d, usedDigits := (2 ^ idx.toNat),
        isValid := true, isNumber := true, isComplete := false, isSolution := false,
        isCommutative := false, isDistributive := false } := by
  have hk : idx.toNat ≤ 3 := by omega
  refine ⟨rfl, by simp, ?_, ?_, ?_, ?_, ?_⟩
  · exact (pow_pos (by norm_num : (0 : Nat) < 2) _).ne'
  · calc (2 : Nat) ^ idx.toNat ≤ 2 ^ 3 := Nat.pow_le_pow_right (by norm_num) hk
      _ < 16 := by norm_num
  · intro e he
    rw [List.mem_singleton] at he
    rw [he]
    exact evals_intToString d
  · intro _ e he
    rw [List.mem_singleton] at he
    rw [he]
    exact parseNum_intToString_nil d
  · intro h
    simp at h

theorem seedDigits_ok : ∀ (digits : List Int) (idx : Int), 0 ≤ idx →
    idx + digits.length ≤ 4 →
    ∃ segs, Calculator.seedDigits digits idx = Except.ok segs ∧ GoodAll segs := by
  intro digits
  induction digits with
  | nil =>
    intro idx _ _
    exact ⟨[], rfl, fun s hs => absurd hs (by simp)⟩
  | cons d rest ih =>
    intro idx h0 h4
    simp only [List.length_cons] at h4
    have hok := DigitSegment.digit_make_ok d idx h0 (by omega)
    obtain ⟨segs, hseg, hgood⟩ := ih (idx + 1) (by omega) (by omega)
    refine ⟨{ expressions := [intToString d], value := d, usedDigits := (2 ^ idx.toNat),
              isValid := true, isNumber := true, isComplete := false, isSolution := false,
              isCommutative := false, isDistributive := false } :: segs, ?_, ?_⟩
    · unfold Calculator.seedDigits
      rw [hok, hseg]
      rfl
    · intro s hs
      rcases List.mem_cons.mp hs with rfl | hs
      · exact goodSeg_digit d idx h0 (by omega)
      · exact hgood s hs

theorem addNumberCombinations_good (segs : List Segment) (h : GoodAll segs) :
    GoodAll (Calculator.addNumberCombinations segs) := by
  unfold Calculator.addNumberCombinations
  dsimp only
  have hacc :
      GoodAll ((segs.foldl
        (fun acc numberA => segs.foldl
          (fun acc numberB => Calculator.addCombinationPair segs acc numberA numberB) acc)
        ([], []))).1 ∧
      GoodAll ((segs.foldl
        (fun acc numberA => segs.foldl
          (fun acc numberB => Calculator.addCombinationPair segs acc numberA numberB) acc)
        ([], []))).2 := by
    refine foldl_preserve_mem (fun acc => GoodAll acc.1 ∧ GoodAll acc.2) segs _ ?_ ([], [])
      ⟨fun s hs => absurd hs (by simp), fun s hs => absurd hs (by simp)⟩
    intro acc a hamem hP
    refine foldl_preserve_mem (fun acc => GoodAll acc.1 ∧ GoodAll acc.2) segs _ ?_ acc hP
    intro acc2 bb hbmem hP2
    unfold Calculator.addCombinationPair
    dsimp only
    have hga := h a hamem
    have hgb := h bb hbmem
    constructor
    · split
      next hcond =>
        simp only [Bool.and_eq_true] at hcond
        intro s hs
        rcases List.mem_append.mp hs with hs | hs
        · exact hP2.1 s hs
        · rw [List.mem_singleton] at hs
          rw [hs]
          exact combination_make_good a bb hga.2.2.1 hga.2.2.2.1 hgb.2.2.2.1 hcond.1
      next => exact hP2.1
    · unfold Calculator.addThreeDigits
      refine foldl_preserve_mem GoodAll segs _ ?_ acc2.2 hP2.2
      intro th c hcmem hth
      dsimp only
      split
      next hcond =>
        simp only [Bool.and_eq_true] at hcond
        have hgc := h c hcmem
        intro s hs
        rcases List.mem_append.mp hs with hs | hs
        · exact hth s hs
        · rw [List.mem_singleton] at hs
          rw [hs]
          refine combination_make_good _ c ?_ ?_ hgc.2.2.2.1 hcond.1
          · rw [Combination.comb_make_usedDigits]
            exact lor_ne_zero _ _ hga.2.2.2.1 hgb.2.2.2.1 hga.2.2.1
          · rw [Combination.comb_make_usedDigits]
            exact lor_lt_16 _ _ hga.2.2.2.1 hgb.2.2.2.1
      next => exact hth
  exact goodAll_append (goodAll_append h hacc.1) hacc.2

theorem Calculator.init_ok (digits : List Int) (h4 : digits.length = 4) :
    ∃ c, Calculator.init digits = Except.ok c ∧ GoodAll c.segments ∧ c.solutions = [] := by
  unfold Calculator.init
  rw [if_neg (by omega)]
  obtain ⟨segs, hseed, hgood⟩ := seedDigits_ok digits 0 (by norm_num) (by omega)
  rw [hseed]
  exact ⟨_, rfl, addNumberCombinations_good segs hgood, rfl⟩

theorem Calculator.init_err (digits : List Int) (h : digits.length ≠ 4) :
    Calculator.init digits = Except.error "Invalid digits argument." := by
  unfold Calculator.init
  rw [if_pos h]

/-! ### The operator-closure round in pair-list form -/

def pairList (segs : List Segment) : List (Segment × Segment) :=
  segs.flatMap (fun segmentA => segs.map (fun segmentB => (segmentA, segmentB)))

theorem pairList_mem {segs : List Segment} {p : Segment × Segment} :
    p ∈ pairList segs ↔ p.1 ∈ segs ∧ p.2 ∈ segs := by
  unfold pairList
  rw [List.mem_flatMap]
  constructor
  · rintro ⟨a, ha, hp⟩
    rw [List.mem_map] at hp
    obtain ⟨b, hb, rfl⟩ := hp
    exact ⟨ha, hb⟩
  · rintro ⟨h1, h2⟩
    exact ⟨p.1, h1, List.mem_map.mpr ⟨p.2, h2, rfl⟩⟩

theorem foldl_flatMap {α β γ : Type} (l : List α) (g : α → List β) (f : γ → β → γ) :
    ∀ init, (l.flatMap g).foldl f init = l.foldl (fun s a => (g a).foldl f s) init := by
  induction l with
  | nil => intro init; rfl
  | cons a l ih =>
    intro init
    rw [List.flatMap_cons, List.foldl_append, List.foldl_cons, ih]

theorem runRound_eq_pairs (segs : List Segment) (sols : Solutions) :
    Calculator.runRound segs sols =
      (pairList segs).foldl
        (fun st p => Calculator.addOperationPair segs st p.1 p.2) ([], sols) := by
  unfold Calculator.runRound pairList
  rw [foldl_flatMap]
  congr 1
  funext st a
  rw [List.foldl_map]

/-! ### Invariants threaded through one round -/

/-- A candidate operation formed from a mask-disjoint registry pair. -/
def IsRoundOp (segs : List Segment) (op : Segment) : Prop :=
  ∃ a ∈ segs, ∃ b ∈ segs, Segment.haveRepeatingDigits a b = false ∧
    (op = Addition.make a b ∨ op = Subtraction.make a b)

/-- Coherence of the solution map with a set of witness segments: every
key is in the solution range, every text list is duplicate free, and
every recorded text belongs to some witness segment with that value. -/
def SolInv (s : List Segment) (sols : Solutions) : Prop :=
  ∀ p ∈ sols, (1 ≤ p.1 ∧ p.1 ≤ 100) ∧ p.2.Nodup ∧
    ∀ t ∈ p.2, ∃ w ∈ s, w.value = p.1 ∧ t ∈ w.expressions

/-- Invariant of the round state: batch members are valid fresh
operations over the registry, pairwise distinct under the duplicate
test, well formed, and the solution map is coherent with registry plus
batch. -/
def RoundInv (segs : List Segment) (st : List Segment × Solutions) : Prop :=
  (∀ op ∈ st.1, op.isValid = true ∧ (∀ s ∈ segs, s.equals op = false) ∧ IsRoundOp segs op) ∧
  List.Pairwise (fun x y => x.equals y = false) st.1 ∧
  GoodAll st.1 ∧
  SolInv (segs ++ st.1) st.2

/-- An operation is settled with respect to a segment set: it is invalid
or a duplicate of a member. -/
def Settled (s : List Segment) (op : Segment) : Prop :=
  op.isValid = false ∨ ∃ w ∈ s, w.equals op = true

theorem settled_mono {s s2 : List Segment} {op : Segment} (h : Settled s op)
    (hsub : ∀ w ∈ s, w ∈ s2) : Settled s2 op := by
  rcases h with h | ⟨w, hw, he⟩
  · exact Or.inl h
  · exact Or.inr ⟨w, hsub w hw, he⟩

theorem solInv_mono {s s2 : List Segment} {sols : Solutions} (h : SolInv s sols)
    (hsub : ∀ w ∈ s, w ∈ s2) : SolInv s2 sols := by
  intro p hp
  obtain ⟨hr, hnd, hw⟩ := h p hp
  refine ⟨hr, hnd, fun t ht => ?_⟩
  obtain ⟨w, hwmem, hwv, hwt⟩ := hw t ht
  exact ⟨w, hsub w hwmem, hwv, hwt⟩

theorem isRoundOp_good {segs : List Segment} {op : Segment} (hgood : GoodAll segs)
    (hop : IsRoundOp segs op) (hval : op.isValid = true) : GoodSeg op := by
  obtain ⟨a, ha, b, hb, hrep, hcase | hcase⟩ := hop
  · subst hcase
    exact addition_make_good a b (hgood a ha) (hgood b hb) hval
  · subst hcase
    exact subtraction_make_good a b (hgood a ha) (hgood b hb) hval

theorem operationExistsIn_eq_false {op : Segment} {l : List Segment} :
    Calculator.operationExistsIn op l = false ↔ ∀ s ∈ l, s.equals op = false := by
  unfold Calculator.operationExistsIn
  rw [← Bool.not_eq_true, List.any_eq_true]
  push_neg
  constructor
  · intro h s hs
    simpa using h s hs
  · intro h s hs
    simp [h s hs]

theorem addSolution_preserve (s : List Segment) (sols : Solutions) (op : Segment)
    (hsol : SolInv s sols)
    (hclash : ∀ w ∈ s, w.equals op = false)
    (hrange : 1 ≤ op.value ∧ op.value ≤ 100)
    (hmem : op.str ∈ op.expressions) :
    SolInv (s ++ [op]) (Calculator.addSolution sols op.value op.str) := by
  have hsub : ∀ w ∈ s, w ∈ s ++ [op] := fun w hw => List.mem_append.mpr (Or.inl hw)
  have hopmem : op ∈ s ++ [op] := List.mem_append.mpr (Or.inr (by simp))
  intro p hp
  unfold Calculator.addSolution at hp
  by_cases hkey : sols.any (fun q => decide (q.1 = op.value)) = true
  · rw [if_pos hkey] at hp
    rw [List.mem_map] at hp
    obtain ⟨q, hq, hpq⟩ := hp
    obtain ⟨hqr, hqnd, hqw⟩ := hsol q hq
    by_cases hqv : q.1 = op.value
    · rw [if_pos hqv] at hpq
      subst hpq
      have hnotin : op.str ∉ q.2 := by
        intro hin
        obtain ⟨w, hwmem, hwv, hwt⟩ := hqw op.str hin
        have hweq : w.equals op = true := (Segment.equals_iff w op).mpr
          ⟨by rw [hwv, hqv], op.str, hwt, hmem⟩
        rw [hclash w hwmem] at hweq
        exact absurd hweq (by simp)
      refine ⟨by simpa using hqr, ?_, ?_⟩
      · simp only [List.nodup_append, List.nodup_cons, List.not_mem_nil, not_false_iff,
          List.nodup_nil, and_true, true_and]
        refine ⟨hqnd, ?_⟩
        intro t ht hts
        rw [List.mem_singleton] at hts
        rw [hts] at ht
        exact hnotin ht
      · intro t ht
        rcases List.mem_append.mp ht with ht | ht
        · obtain ⟨w, hwmem, hwv, hwt⟩ := hqw t ht
          exact ⟨w, hsub w hwmem, hwv, hwt⟩
        · rw [List.mem_singleton] at ht
          rw [ht]
          exact ⟨op, hopmem, by rw [hqv], hmem⟩
    · rw [if_neg hqv] at hpq
      subst hpq
      refine ⟨hqr, hqnd, fun t ht => ?_⟩
      obtain ⟨w, hwmem, hwv, hwt⟩ := hqw t ht
      exact ⟨w, hsub w hwmem, hwv, hwt⟩
  · rw [if_neg hkey] at hp
    rcases List.mem_append.mp hp with hp | hp
    · obtain ⟨hr, hnd, hw⟩ := hsol p hp
      refine ⟨hr, hnd, fun t ht => ?_⟩
      obtain ⟨w, hwmem, hwv, hwt⟩ := hw t ht
      exact ⟨w, hsub w hwmem, hwv, hwt⟩
    · rw [List.mem_singleton] at hp
      rw [hp]
      refine ⟨hrange, List.nodup_singleton _, fun t ht => ?_⟩
      rw [List.mem_singleton] at ht
      rw [ht]
      exact ⟨op, hopmem, rfl, hmem⟩

theorem addOperation_step (segs : List Segment) (st : List Segment × Solutions) (op : Segment)
    (hgood : GoodAll segs) (hinv : RoundInv segs st) (hop : IsRoundOp segs op) :
    RoundInv segs (Calculator.addOperation segs st op) ∧
    (∃ ext, (Calculator.addOperation segs st op).1 = st.1 ++ ext) ∧
    Settled (segs ++ (Calculator.addOperation segs st op).1) op := by
  obtain ⟨hbatch, hpw, hgb, hsol⟩ := hinv
  unfold Calculator.addOperation
  by_cases hguard : (op.isValid && !Calculator.operationExistsIn op st.1 &&
      !Calculator.operationExistsIn op segs) = true
  · rw [if_pos hguard]
    simp only [Bool.and_eq_true, Bool.not_eq_true'] at hguard
    obtain ⟨⟨hv, hnb⟩, hns⟩ := hguard
    have hnb2 := operationExistsIn_eq_false.mp hnb
    have hns2 := operationExistsIn_eq_false.mp hns
    have hgop : GoodSeg op := isRoundOp_good hgood hop hv
    have hclash : ∀ w ∈ segs ++ st.1, w.equals op = false := by
      intro w hw
      rcases List.mem_append.mp hw with hw | hw
      · exact hns2 w hw
      · exact hnb2 w hw
    refine ⟨⟨?_, ?_, ?_, ?_⟩, ⟨[op], rfl⟩, ?_⟩
    · intro o ho
      rcases List.mem_append.mp ho with ho | ho
      · exact hbatch o ho
      · rw [List.mem_singleton] at ho
        rw [ho]
        exact ⟨hv, hns2, hop⟩
    · rw [List.pairwise_append]
      refine ⟨hpw, List.pairwise_singleton _ _, ?_⟩
      intro x hx y hy
      rw [List.mem_singleton] at hy
      rw [hy]
      exact hnb2 x hx
    · intro o ho
      rcases List.mem_append.mp ho with ho | ho
      · exact hgb o ho
      · rw [List.mem_singleton] at ho
        rw [ho]
        exact hgop
    · dsimp only
      by_cases hsolu : op.isSolution = true
      · rw [if_pos hsolu]
        have hpres := addSolution_preserve (segs ++ st.1) st.2 op hsol hclash
          (by
            obtain ⟨h1, h2⟩ := hgop.2.2.2.2.2.2 hsolu
            omega)
          (Segment.str_mem op hgop.2.1)
        refine solInv_mono hpres ?_
        intro w hw
        rcases List.mem_append.mp hw with hw | hw
        · rcases List.mem_append.mp hw with hw | hw
          · exact List.mem_append.mpr (Or.inl hw)
          · exact List.mem_append.mpr (Or.inr (List.mem_append.mpr (Or.inl hw)))
        · rw [List.mem_singleton] at hw
          rw [hw]
          exact List.mem_append.mpr (Or.inr (List.mem_append.mpr (Or.inr (by simp))))
      · rw [if_neg hsolu]
        refine solInv_mono hsol ?_
        intro w hw
        rcases List.mem_append.mp hw with hw | hw
        · exact List.mem_append.mpr (Or.inl hw)
        · exact List.mem_append.mpr (Or.inr (List.mem_append.mpr (Or.inl hw)))
    · refine Or.inr ⟨op, ?_, Segment.equals_refl op hgop.2.1⟩
      exact List.mem_append.mpr (Or.inr (List.mem_append.mpr (Or.inr (by simp))))
  · rw [if_neg hguard]
    refine ⟨⟨hbatch, hpw, hgb, hsol⟩, ⟨[], (List.append_nil _).symm⟩, ?_⟩
    simp only [Bool.and_eq_true, Bool.not_eq_true', not_and] at hguard
    by_cases hv : op.isValid = true
    · by_cases hb : Calculator.operationExistsIn op st.1 = true
      · unfold Calculator.operationExistsIn at hb
        rw [List.any_eq_true] at hb
        obtain ⟨w, hw, hwe⟩ := hb
        refine Or.inr ⟨w, List.mem_append.mpr (Or.inr hw), by simpa using hwe⟩
      · rw [Bool.not_eq_true] at hb
        have hs : Calculator.operationExistsIn op segs = true := by
          have h2 := hguard ⟨hv, hb⟩
          simpa using h2
        unfold Calculator.operationExistsIn at hs
        rw [List.any_eq_true] at hs
        obtain ⟨w, hw, hwe⟩ := hs
        refine Or.inr ⟨w, List.mem_append.mpr (Or.inl hw), by simpa using hwe⟩
    · exact Or.inl (by simpa using hv)

theorem addOperationPair_step (segs : List Segment) (st : List Segment × Solutions)
    (a b : Segment) (hgood : GoodAll segs) (hinv : RoundInv segs st)
    (ha : a ∈ segs) (hb : b ∈ segs) :
    RoundInv segs (Calculator.addOperationPair segs st a b) ∧
    (∃ ext, (Calculator.addOperationPair segs st a b).1 = st.1 ++ ext) ∧
    (Segment.haveRepeatingDigits a b = false →
      Settled (segs ++ (Calculator.addOperationPair segs st a b).1) (Addition.make a b) ∧
      Settled (segs ++ (Calculator.addOperationPair segs st a b).1) (Subtraction.make a b)) := by
  unfold Calculator.addOperationPair
  by_cases hrep : Segment.haveRepeatingDigits a b = true
  · rw [if_pos hrep]
    exact ⟨hinv, ⟨[], (List.append_nil _).symm⟩,
      fun hfalse => absurd hrep (by rw [hfalse]; simp)⟩
  · rw [Bool.not_eq_true] at hrep
    rw [if_neg (by simp [hrep])]
    have hopA : IsRoundOp segs (Addition.make a b) := ⟨a, ha, b, hb, hrep, Or.inl rfl⟩
    have hopS : IsRoundOp segs (Subtraction.make a b) := ⟨a, ha, b, hb, hrep, Or.inr rfl⟩
    obtain ⟨hinv1, ⟨e1, he1⟩, hset1⟩ :=
      addOperation_step segs st (Addition.make a b) hgood hinv hopA
    obtain ⟨hinv2, ⟨e2, he2⟩, hset2⟩ :=
      addOperation_step segs (Calculator.addOperation segs st (Addition.make a b))
        (Subtraction.make a b) hgood hinv1 hopS
    refine ⟨hinv2, ⟨e1 ++ e2, by rw [he2, he1, List.append_assoc]⟩, fun _ => ⟨?_, hset2⟩⟩
    refine settled_mono hset1 ?_
    intro w hw
    rcases List.mem_append.mp hw with hw | hw
    · exact List.mem_append.mpr (Or.inl hw)
    · refine List.mem_append.mpr (Or.inr ?_)
      rw [he2]
      exact List.mem_append.mpr (Or.inl hw)

theorem roundFold_spec (segs : List Segment) (hgood : GoodAll segs) :
    ∀ ps : List (Segment × Segment), (∀ p ∈ ps, p.1 ∈ segs ∧ p.2 ∈ segs) →
    ∀ st, RoundInv segs st →
      RoundInv segs
        (ps.foldl (fun st p => Calculator.addOperationPair segs st p.1 p.2) st) ∧
      (∃ ext, (ps.foldl (fun st p => Calculator.addOperationPair segs st p.1 p.2) st).1 =
        st.1 ++ ext) ∧
      (∀ p ∈ ps, Segment.haveRepeatingDigits p.1 p.2 = false →
        Settled (segs ++
            (ps.foldl (fun st p => Calculator.addOperationPair segs st p.1 p.2) st).1)
          (Addition.make p.1 p.2) ∧
        Settled (segs ++
            (ps.foldl (fun st p => Calculator.addOperationPair segs st p.1 p.2) st).1)
          (Subtraction.make p.1 p.2)) := by
  intro ps
  induction ps with
  | nil =>
    intro _ st hinv
    exact ⟨hinv, ⟨[], (List.append_nil _).symm⟩, fun p hp => absurd hp (by simp)⟩
  | cons p ps ih =>
    intro hps st hinv
    obtain ⟨hp1, hp2⟩ := hps p (by simp)
    obtain ⟨hinv1, ⟨e1, he1⟩, hsetp⟩ := addOperationPair_step segs st p.1 p.2 hgood hinv hp1 hp2
    obtain ⟨hinvF, ⟨e2, he2⟩, hsetRest⟩ :=
      ih (fun q hq => hps q (by simp [hq])) _ hinv1
    rw [List.foldl_cons]
    refine ⟨hinvF, ⟨e1 ++ e2, by rw [he2, he1, List.append_assoc]⟩, ?_⟩
    intro q hq hqrep
    rcases List.mem_cons.mp hq with rfl | hq
    · have hmono : ∀ w ∈ segs ++ (Calculator.addOperationPair segs st q.1 q.2).1,
          w ∈ segs ++ (ps.foldl (fun st p => Calculator.addOperationPair segs st p.1 p.2)
            (Calculator.addOperationPair segs st q.1 q.2)).1 := by
        intro w hw
        rcases List.mem_append.mp hw with hw | hw
        · exact List.mem_append.mpr (Or.inl hw)
        · refine List.mem_append.mpr (Or.inr ?_)
          rw [he2]
          exact List.mem_append.mpr (Or.inl hw)
      obtain ⟨hA, hS⟩ := hsetp hqrep
      exact ⟨settled_mono hA hmono, settled_mono hS hmono⟩
    · exact hsetRest q hq hqrep

theorem runRound_spec (segs : List Segment) (sols : Solutions)
    (hgood : GoodAll segs) (hsol : SolInv segs sols) :
    RoundInv segs (Calculator.runRound segs sols) ∧
    (∀ a ∈ segs, ∀ b ∈ segs, Segment.haveRepeatingDigits a b = false →
      Settled (segs ++ (Calculator.runRound segs sols).1) (Addition.make a b) ∧
      Settled (segs ++ (Calculator.runRound segs sols).1) (Subtraction.make a b)) := by
  have hinv0 : RoundInv segs ([], sols) := by
    refine ⟨fun o ho => absurd ho (by simp), by simp, fun s hs => absurd hs (by simp), ?_⟩
    simpa using hsol
  have hspec := roundFold_spec segs hgood (pairList segs)
    (fun p hp => pairList_mem.mp hp) ([], sols) hinv0
  rw [runRound_eq_pairs]
  refine ⟨hspec.1, ?_⟩
  intro a ha b hb hrep
  exact hspec.2.2 (a, b) (pairList_mem.mpr ⟨ha, hb⟩) hrep

/-! ### The fixed-point loop: invariant preservation and convergence -/

theorem generateOperations_spec : ∀ (fuel : Nat) (segs : List Segment) (sols : Solutions),
    GoodAll segs → SolInv segs sols →
    GoodAll (Calculator.generateOperations fuel segs sols).1 ∧
    SolInv (Calculator.generateOperations fuel segs sols).1
      (Calculator.generateOperations fuel segs sols).2.1 := by
  intro fuel
  induction fuel with
  | zero =>
    intro segs sols hg hs
    exact ⟨hg, hs⟩
  | succ f ih =>
    intro segs sols hg hs
    obtain ⟨⟨hbatch, hpw, hgb, hsol⟩, hsettled⟩ := runRound_spec segs sols hg hs
    simp only [Calculator.generateOperations]
    cases hr : Calculator.runRound segs sols with
    | mk batch rest =>
      rw [hr] at hgb hsol
      dsimp only at hgb hsol ⊢
      by_cases hempty : batch.isEmpty = true
      · rw [if_pos hempty]
        exact ⟨goodAll_append hg hgb, hsol⟩
      · rw [if_neg hempty]
        exact ih (segs ++ batch) rest (goodAll_append hg hgb) hsol

theorem batch_fresh (old B : List Segment) (sols : Solutions)
    (hgood : GoodAll (old ++ B)) (hsol : SolInv (old ++ B) sols)
    (hsettledOld : ∀ a ∈ old, ∀ b ∈ old, Segment.haveRepeatingDigits a b = false →
        Settled (old ++ B) (Addition.make a b) ∧ Settled (old ++ B) (Subtraction.make a b)) :
    ∀ op ∈ (Calculator.runRound (old ++ B) sols).1,
      ∃ a ∈ old ++ B, ∃ b ∈ old ++ B, (a ∈ B ∨ b ∈ B) ∧
        Segment.haveRepeatingDigits a b = false ∧
        (op = Addition.make a b ∨ op = Subtraction.make a b) := by
  intro op hop
  obtain ⟨⟨hbatch, _, _, _⟩, _⟩ := runRound_spec (old ++ B) sols hgood hsol
  obtain ⟨hv, hne, a, ha, b, hb, hrep, hcase⟩ := hbatch op hop
  refine ⟨a, ha, b, hb, ?_, hrep, hcase⟩
  by_contra hnot
  push_neg at hnot
  obtain ⟨hna, hnb⟩ := hnot
  have haold : a ∈ old := by
    rcases List.mem_append.mp ha with h | h
    · exact h
    · exact absurd h hna
  have hbold : b ∈ old := by
    rcases List.mem_append.mp hb with h | h
    · exact h
    · exact absurd h hnb
  have hsett := hsettledOld a haold b hbold hrep
  have hsettop : Settled (old ++ B) op := by
    rcases hcase with rfl | rfl
    · exact hsett.1
    · exact hsett.2
  rcases hsettop with hbad | ⟨w, hw, hwe⟩
  · rw [hv] at hbad
    exact absurd hbad (by simp)
  · rw [hne w hw] at hwe
    exact absurd hwe (by simp)

theorem op_mask_popCount {a b : Segment} {op : Segment}
    (hga : GoodSeg a) (hgb : GoodSeg b)
    (hrep : Segment.haveRepeatingDigits a b = false)
    (hcase : op = Addition.make a b ∨ op = Subtraction.make a b) :
    popCount4 op.usedDigits = popCount4 a.usedDigits + popCount4 b.usedDigits := by
  have hdisj : a.usedDigits &&& b.usedDigits = 0 :=
    (haveRepeatingDigits_eq_false_iff a b).mp hrep
  have husd : op.usedDigits = a.usedDigits ||| b.usedDigits := by
    rcases hcase with rfl | rfl
    · exact (Addition.add_make_fields a b).2.1
    · exact (Subtraction.sub_make_fields a b).2.1
  rw [husd]
  exact popCount4_lor _ _ hga.2.2.2.1 hgb.2.2.2.1 hdisj

theorem genOps_converges : ∀ (fuel k : Nat) (old B : List Segment) (sols : Solutions),
    GoodAll (old ++ B) →
    SolInv (old ++ B) sols →
    (∀ a ∈ old, ∀ b ∈ old, Segment.haveRepeatingDigits a b = false →
        Settled (old ++ B) (Addition.make a b) ∧ Settled (old ++ B) (Subtraction.make a b)) →
    (∀ op ∈ B, k ≤ popCount4 op.usedDigits) →
    1 ≤ fuel → 5 ≤ k + fuel →
    (Calculator.generateOperations fuel (old ++ B) sols).2.2 = true := by
  intro fuel
  induction fuel with
  | zero => omega
  | succ f ih =>
    intro k old B sols hgood hsol hsettled hpc _ hkf
    obtain ⟨⟨hbatch, hpwB, hgbatch, hsolB⟩, hsettledNew⟩ := runRound_spec (old ++ B) sols hgood hsol
    have hfresh := batch_fresh old B sols hgood hsol hsettled
    simp only [Calculator.generateOperations]
    cases hr : Calculator.runRound (old ++ B) sols with
    | mk batch rest =>
      rw [hr] at hbatch hgbatch hsolB hsettledNew hfresh
      dsimp only at hbatch hgbatch hsolB hsettledNew hfresh ⊢
      by_cases hempty : batch.isEmpty = true
      · rw [if_pos hempty]
      · rw [if_neg hempty]
        have hbne : batch ≠ [] := by
          intro h
          rw [h] at hempty
          exact hempty rfl
        have hpcbatch : ∀ op ∈ batch, k + 1 ≤ popCount4 op.usedDigits := by
          intro op hop
          obtain ⟨a, ha, b, hb, hfreshab, hrep, hcase⟩ := hfresh op hop
          have hga := hgood a ha
          have hgb := hgood b hb
          rw [op_mask_popCount hga hgb hrep hcase]
          rcases hfreshab with hmem | hmem
          · have h1 := hpc a hmem
            have h2 := popCount4_pos b.usedDigits hgb.2.2.2.1 hgb.2.2.1
            omega
          · have h1 := hpc b hmem
            have h2 := popCount4_pos a.usedDigits hga.2.2.2.1 hga.2.2.1
            omega
        have hkle : k + 1 ≤ 4 := by
          obtain ⟨op, hop⟩ := List.exists_mem_of_ne_nil _ hbne
          have h1 := hpcbatch op hop
          have h2 := popCount4_le op.usedDigits ((hgbatch op hop).2.2.2.1)
          omega
        exact ih (k + 1) (old ++ B) batch rest
          (goodAll_append hgood hgbatch)
          hsolB
          (fun a ha b hb hrep => hsettledNew a ha b hb hrep)
          hpcbatch
          (by omega) (by omega)

theorem solInv_nil (segs : List Segment) : SolInv segs [] :=
  fun p hp => absurd hp (by simp)

theorem generateOperations_converges (segs : List Segment) (sols : Solutions)
    (hgood : GoodAll segs) (hsol : SolInv segs sols) :
    (Calculator.generateOperations 4 segs sols).2.2 = true := by
  have h := genOps_converges 4 1 [] segs sols (by simpa using hgood) (by simpa using hsol)
    (fun a ha => absurd ha (by simp))
    (fun op hop => popCount4_pos _ ((hgood op hop).2.2.2.1) ((hgood op hop).2.2.1))
    (by norm_num) (by norm_num)
  simpa using h

theorem Calculator.make_spec (fuel : Nat) (digits : List Int) (res : Calculator)
    (h : Calculator.make fuel digits = Except.ok res) :
    GoodAll res.segments ∧ SolInv res.segments res.solutions := by
  unfold Calculator.make at h
  cases hinit : Calculator.init digits with
  | error e =>
    rw [hinit] at h
    exact Except.noConfusion h
  | ok c =>
    by_cases hlen : digits.length = 4
    · obtain ⟨c2, hc2, hgood, hsols⟩ := Calculator.init_ok digits hlen
      rw [hinit] at hc2
      injection hc2 with hc2
      subst hc2
      rw [hinit] at h
      injection h with h2
      subst h2
      dsimp only
      exact generateOperations_spec fuel c.segments c.solutions hgood
        (by rw [hsols]; exact solInv_nil _)
    · rw [Calculator.init_err digits hlen] at hinit
      exact absurd hinit (by simp)

theorem Calculator.make_ok (fuel : Nat) (digits : List Int) (h4 : digits.length = 4) :
    ∃ res, Calculator.make fuel digits = Except.ok res := by
  obtain ⟨c, hc, _, _⟩ := Calculator.init_ok digits h4
  unfold Calculator.make
  rw [hc]
  exact ⟨_, rfl⟩

theorem Calculator.make_err (fuel : Nat) (digits : List Int) (h : digits.length ≠ 4) :
    Calculator.make fuel digits = Except.error "Invalid digits argument." := by
  unfold Calculator.make
  rw [Calculator.init_err digits h]
  rfl

/-! ### Concrete instances used to exercise the theorems -/

set_option maxRecDepth 100000

/-- Bare segment carrying only a mask, for exercising the mask test. -/
def segMask (m : Nat) : Segment :=
  { expressions := [], value := 0, usedDigits := m, isValid := false, isNumber := false,
    isComplete := false, isSolution := false, isCommutative := false, isDistributive := false }

/-- Digit-like segment literal used in concrete instantiations. -/
def segDigit (v : Int) (m : Nat) : Segment :=
  { expressions := [intToString v], value := v, usedDigits := m, isValid := true,
    isNumber := true, isComplete := false, isSolution := false, isCommutative := false,
    isDistributive := false }

/-- The engine state computed for the input 1, 1, 1, 1. -/
def calc1111 : Calculator :=
  match Calculator.make 4 [1, 1, 1, 1] with
  | Except.ok c => c
  | Except.error _ => { segments := [], solutions := [] }

/-- The engine state computed for the input 0, 0, 0, 0. -/
def calc0000 : Calculator :=
  match Calculator.make 4 [0, 0, 0, 0] with
  | Except.ok c => c
  | Except.error _ => { segments := [], solutions := [] }

/-- The seeded state computed for the input 0, 0, 0, 0, before the
operator-closure loop. -/
def init0000 : Calculator :=
  match Calculator.init [0, 0, 0, 0] with
  | Except.ok c => c
  | Except.error _ => { segments := [], solutions := [] }

/-! ### The claims -/

/-- C6: for every pair of segments, haveRepeatingDigits is symmetric and
returns true exactly when the bitwise and of the two used-digit masks is
nonzero. -/
theorem C6_haveRepeatingDigits_symm_and_overlap (s t : Segment) :
    Segment.haveRepeatingDigits s t = Segment.haveRepeatingDigits t s ∧
    (Segment.haveRepeatingDigits s t = true ↔ s.usedDigits &&& t.usedDigits ≠ 0) :=
  ⟨haveRepeatingDigits_comm s t, haveRepeatingDigits_eq_true_iff s t⟩

/-- C7 counterexample: on segments with masks 0b0011 and 0b1010 the test
returns true, not false as the claim states, because bit 1 is shared. -/
theorem C7_counterexample :
    Segment.haveRepeatingDigits (segMask 3) (segMask 10) ≠ false := by decide

/-- C7 amended: haveRepeatingDigits returns true for masks 0b0011 and
0b1010 (bit 1 is shared), false for masks 0b1000 and 0b0110 (disjoint),
and true for masks 0b0011 and 0b0010 (bit 1 is shared). -/
theorem C7_amended (s t : Segment) :
    (s.usedDigits = 3 → t.usedDigits = 10 → Segment.haveRepeatingDigits s t = true) ∧
    (s.usedDigits = 8 → t.usedDigits = 6 → Segment.haveRepeatingDigits s t = false) ∧
    (s.usedDigits = 3 → t.usedDigits = 2 → Segment.haveRepeatingDigits s t = true) := by
  refine ⟨?_, ?_, ?_⟩ <;> intro hs ht <;> unfold Segment.haveRepeatingDigits <;>
    rw [hs, ht] <;> decide

/-- Witness for the amended C7 at concrete segments with those masks. -/
theorem C7_amended_witness :
    Segment.haveRepeatingDigits (segMask 3) (segMask 10) = true ∧
    Segment.haveRepeatingDigits (segMask 8) (segMask 6) = false ∧
    Segment.haveRepeatingDigits (segMask 3) (segMask 2) = true :=
  ⟨(C7_amended (segMask 3) (segMask 10)).1 rfl rfl,
   (C7_amended (segMask 8) (segMask 6)).2.1 rfl rfl,
   (C7_amended (segMask 3) (segMask 2)).2.2 rfl rfl⟩

/-- C1: for every digit input accepted by the Calculator, every
expression string stored in the solutions map under key v evaluates,
under standard arithmetic evaluation of the text with left-associative
plus and minus of equal precedence and parentheses, to exactly v; the
parenthesisation of distributive right operands by Subtraction preserves
the computed value. -/
theorem C1_solution_texts_evaluate (fuel : Nat) (digits : List Int) (res : Calculator)
    (h : Calculator.make fuel digits = Except.ok res) :
    ∀ p ∈ res.solutions, ∀ t ∈ p.2, evalString t = some p.1 := by
  obtain ⟨hgood, hsol⟩ := Calculator.make_spec fuel digits res h
  intro p hp t ht
  obtain ⟨_, _, hw⟩ := hsol p hp
  obtain ⟨w, hwmem, hwv, hwt⟩ := hw t ht
  have hgw := hgood w hwmem
  have hev := hgw.2.2.2.2.1 t hwt
  rw [← hwv]
  exact evalString_of_evals hev

/-- Witness for C1 on the input 1, 1, 1, 1 at the recorded solution
13 = 1 + 1 + 11. -/
theorem C1_solution_texts_evaluate_witness : evalString "1 + 1 + 11" = some 13 :=
  C1_solution_texts_evaluate 4 [1, 1, 1, 1] calc1111 (by rfl)
    (13, ["1 + 1 + 11"]) (by decide) "1 + 1 + 11" (by decide)

/-- C2: every key of the returned solutions map lies between 1 and 100
(in particular the keys 0 and 101 never occur); an Addition or
Subtraction has isSolution true exactly when it is complete and its
value lies between 1 and 100; and an operation whose isSolution flag is
false never contributes to the solution map. -/
theorem C2_solution_keys_in_range :
    (∀ (fuel : Nat) (digits : List Int) (res : Calculator),
      Calculator.make fuel digits = Except.ok res →
      ∀ p ∈ res.solutions, 1 ≤ p.1 ∧ p.1 ≤ 100 ∧ p.1 ≠ 0 ∧ p.1 ≠ 101) ∧
    (∀ a b : Segment, (Addition.make a b).isSolution = true ↔
      ((Addition.make a b).isComplete = true ∧
        1 ≤ (Addition.make a b).value ∧ (Addition.make a b).value ≤ 100)) ∧
    (∀ a b : Segment, (Subtraction.make a b).isSolution = true ↔
      ((Subtraction.make a b).isComplete = true ∧
        1 ≤ (Subtraction.make a b).value ∧ (Subtraction.make a b).value ≤ 100)) ∧
    (∀ (segs : List Segment) (st : List Segment × Solutions) (op : Segment),
      op.isSolution = false → (Calculator.addOperation segs st op).2 = st.2) := by
  refine ⟨?_, ?_, ?_, ?_⟩
  · intro fuel digits res h p hp
    obtain ⟨_, hsol⟩ := Calculator.make_spec fuel digits res h
    obtain ⟨⟨h1, h2⟩, _, _⟩ := hsol p hp
    exact ⟨h1, h2, by omega, by omega⟩
  · intro a b
    obtain ⟨hval, husd, hcmp, _, _, hsol⟩ := Addition.add_make_fields a b
    rw [hsol, hcmp, hval]
    simp only [Bool.and_eq_true, decide_eq_true_eq]
    constructor
    · rintro ⟨⟨hc, h1⟩, h2⟩
      exact ⟨hc, by omega, h2⟩
    · rintro ⟨hc, h1, h2⟩
      exact ⟨⟨hc, by omega⟩, h2⟩
  · intro a b
    obtain ⟨hval, husd, hcmp, _, _, hsol⟩ := Subtraction.sub_make_fields a b
    rw [hsol, hcmp, hval]
    simp only [Bool.and_eq_true, decide_eq_true_eq]
    constructor
    · rintro ⟨⟨hc, h1⟩, h2⟩
      exact ⟨hc, by omega, h2⟩
    · rintro ⟨hc, h1, h2⟩
      exact ⟨⟨hc, by omega⟩, h2⟩
  · intro segs st op hfalse
    unfold Calculator.addOperation
    split
    · rw [hfalse]
      simp
    · rfl

/-- Witness for C2 on the input 1, 1, 1, 1 at the recorded key 13. -/
theorem C2_solution_keys_in_range_witness :
    1 ≤ (13 : Int) ∧ (13 : Int) ≤ 100 ∧ (13 : Int) ≠ 0 ∧ (13 : Int) ≠ 101 :=
  C2_solution_keys_in_range.1 4 [1, 1, 1, 1] calc1111 (by rfl) (13, ["1 + 1 + 11"]) (by decide)

/-- C9: for every input, the text list stored under any solution key has
no duplicate entries: operations accepted with the same value have
disjoint expression-text sets, so the recorded primary texts never
repeat. -/
theorem C9_solution_texts_nodup (fuel : Nat) (digits : List Int) (res : Calculator)
    (h : Calculator.make fuel digits = Except.ok res) :
    ∀ p ∈ res.solutions, p.2.Nodup := by
  obtain ⟨_, hsol⟩ := Calculator.make_spec fuel digits res h
  intro p hp
  exact (hsol p hp).2.1

/-- Witness for C9 on the input 1, 1, 1, 1 at the key 2, whose list
holds four distinct texts. -/
theorem C9_solution_texts_nodup_witness :
    (["1 - (1 - (1 + 1))", "1 + 1 + 1 - 1", "1 + 1 - (1 - 1)", "1 - (1 - 1 - 1)"]
      : List String).Nodup := by
  have h := C9_solution_texts_nodup 4 [1, 1, 1, 1] calc1111 (by rfl)
    (2, ["1 - (1 - (1 + 1))", "1 + 1 + 1 - 1", "1 + 1 - (1 - 1)", "1 - (1 - 1 - 1)"])
    (by decide)
  exact h

/-- C3: for every 4-element digit input, the operator-closure loop
reaches its fixed point within four rounds (some round accepts zero new
operations), and every operation accepted in a round is valid, distinct
under the duplicate test from every segment already in the registry, and
pairwise distinct from the other operations accepted in that round. -/
theorem C3_closure_terminates (digits : List Int) (c : Calculator)
    (h4 : digits.length = 4) (hinit : Calculator.init digits = Except.ok c) :
    (Calculator.generateOperations 4 c.segments c.solutions).2.2 = true ∧
    (∀ op ∈ (Calculator.runRound c.segments c.solutions).1,
      op.isValid = true ∧ ∀ s ∈ c.segments, s.equals op = false) ∧
    List.Pairwise (fun x y => x.equals y = false)
      (Calculator.runRound c.segments c.solutions).1 := by
  obtain ⟨c2, hc2, hgood, hsols⟩ := Calculator.init_ok digits h4
  rw [hinit] at hc2
  injection hc2 with hc2
  subst hc2
  have hsolinv : SolInv c.segments c.solutions := by
    rw [hsols]
    exact solInv_nil _
  obtain ⟨⟨hbatch, hpw, _, _⟩, _⟩ := runRound_spec c.segments c.solutions hgood hsolinv
  refine ⟨generateOperations_converges c.segments c.solutions hgood hsolinv, ?_, hpw⟩
  intro op hop
  obtain ⟨hv, hne, _⟩ := hbatch op hop
  exact ⟨hv, hne⟩

/-- Witness for C3 on the input 0, 0, 0, 0: the loop converges. -/
theorem C3_closure_terminates_witness :
    (Calculator.generateOperations 4 init0000.segments init0000.solutions).2.2 = true :=
  (C3_closure_terminates [0, 0, 0, 0] init0000 (by decide) (by rfl)).1

/-- C10: the digit-index error inside DigitSegment is unreachable from
the Calculator constructor: a 4-element input always constructs
successfully, a non-4-element input fails with the invalid-digits error
before any computation, and no input can produce the invalid-digit-index
error. -/
theorem C10_digit_index_unreachable :
    (∀ (fuel : Nat) (digits : List Int), digits.length = 4 →
      ∃ res, Calculator.make fuel digits = Except.ok res) ∧
    (∀ (fuel : Nat) (digits : List Int), digits.length ≠ 4 →
      Calculator.make fuel digits = Except.error "Invalid digits argument.") ∧
    (∀ (fuel : Nat) (digits : List Int),
      Calculator.make fuel digits ≠ Except.error "Invalid digit index argument.") := by
  refine ⟨fun fuel digits h4 => Calculator.make_ok fuel digits h4,
    fun fuel digits h => Calculator.make_err fuel digits h, ?_⟩
  intro fuel digits
  by_cases h4 : digits.length = 4
  · obtain ⟨res, hres⟩ := Calculator.make_ok fuel digits h4
    rw [hres]
    simp
  · rw [Calculator.make_err fuel digits h4]
    simp only [ne_eq, Except.error.injEq]
    decide

/-- Witness for C10: a 4-element input constructs, a 2-element input
fails with the invalid-digits error, and neither produces the
digit-index error. -/
theorem C10_digit_index_unreachable_witness :
    (∃ res, Calculator.make 0 [1, 2, 3, 4] = Except.ok res) ∧
    Calculator.make 0 [1, 2] = Except.error "Invalid digits argument." ∧
    Calculator.make 0 [1, 2] ≠ Except.error "Invalid digit index argument." :=
  ⟨C10_digit_index_unreachable.1 0 [1, 2, 3, 4] (by decide),
   C10_digit_index_unreachable.2.1 0 [1, 2] (by decide),
   C10_digit_index_unreachable.2.2 0 [1, 2]⟩

/-- C4: an Addition or Subtraction is valid exactly when the operand
masks are disjoint and, if the result is complete, its value lies
between 1 and 100 (incomplete operations are valid regardless of value);
an invalid operation or combination is silently discarded: it changes
neither the round batch, nor the solution map, nor the candidate number
lists. -/
theorem C4_validity_and_silent_discard :
    (∀ a b : Segment, (Addition.make a b).isValid = true ↔
      (a.usedDigits &&& b.usedDigits = 0 ∧ ((Addition.make a b).isComplete = true →
        (1 ≤ (Addition.make a b).value ∧ (Addition.make a b).value ≤ 100)))) ∧
    (∀ a b : Segment, (Subtraction.make a b).isValid = true ↔
      (a.usedDigits &&& b.usedDigits = 0 ∧ ((Subtraction.make a b).isComplete = true →
        (1 ≤ (Subtraction.make a b).value ∧ (Subtraction.make a b).value ≤ 100)))) ∧
    (∀ (segs : List Segment) (st : List Segment × Solutions) (op : Segment),
      op.isValid = false → Calculator.addOperation segs st op = st) ∧
    (∀ (segs : List Segment) (acc : List Segment × List Segment) (a b : Segment),
      (Combination.make a b).isValid = false →
      (Calculator.addCombinationPair segs acc a b).1 = acc.1) ∧
    (∀ (segs : List Segment) (newTwoDigit : Segment) (threeDigits : List Segment),
      (∀ c ∈ segs, (Combination.make newTwoDigit c).isValid = false) →
      Calculator.addThreeDigits segs newTwoDigit threeDigits = threeDigits) := by
  refine ⟨?_, ?_, ?_, ?_, ?_⟩
  · intro a b
    rw [Addition.add_make_isValid_iff]
    have hc : (Addition.make a b).isComplete = true ↔ a.usedDigits ||| b.usedDigits = 15 := by
      rw [(Addition.add_make_fields a b).2.2.1]
      simp
    rw [(Addition.add_make_fields a b).1, hc]
    constructor
    · rintro ⟨h1, h2⟩
      refine ⟨h1, fun hm => ?_⟩
      obtain ⟨ha, hb⟩ := h2 hm
      exact ⟨by omega, hb⟩
    · rintro ⟨h1, h2⟩
      refine ⟨h1, fun hm => ?_⟩
      obtain ⟨ha, hb⟩ := h2 hm
      exact ⟨by omega, hb⟩
  · intro a b
    rw [Subtraction.sub_make_isValid_iff]
    have hc : (Subtraction.make a b).isComplete = true ↔ a.usedDigits ||| b.usedDigits = 15 := by
      rw [(Subtraction.sub_make_fields a b).2.2.1]
      simp
    rw [(Subtraction.sub_make_fields a b).1, hc]
    constructor
    · rintro ⟨h1, h2⟩
      refine ⟨h1, fun hm => ?_⟩
      obtain ⟨ha, hb⟩ := h2 hm
      exact ⟨by omega, hb⟩
    · rintro ⟨h1, h2⟩
      refine ⟨h1, fun hm => ?_⟩
      obtain ⟨ha, hb⟩ := h2 hm
      exact ⟨by omega, hb⟩
  · intro segs st op hfalse
    unfold Calculator.addOperation
    split
    next hguard =>
      rw [hfalse] at hguard
      simp at hguard
    next => rfl
  · intro segs acc a b hfalse
    unfold Calculator.addCombinationPair
    dsimp only
    rw [if_neg (by simp [hfalse])]
  · intro segs newTwoDigit threeDigits hall
    unfold Calculator.addThreeDigits
    induction segs with
    | nil => rfl
    | cons c rest ih =>
      rw [List.foldl_cons]
      rw [if_neg (by simp [hall c (by simp)])]
      exact ih (fun c2 hc2 => hall c2 (by simp [hc2]))

/-- Witness for C4: an invalid operation leaves the round state
untouched, and all-invalid three-digit candidates leave the list
untouched. -/
theorem C4_validity_and_silent_discard_witness :
    Calculator.addOperation [] ([], []) (segMask 0) = ([], []) ∧
    Calculator.addThreeDigits [segMask 0] (segMask 0) [] = [] :=
  ⟨C4_validity_and_silent_discard.2.2.1 [] ([], []) (segMask 0) (by decide),
   C4_validity_and_silent_discard.2.2.2.2 [segMask 0] (segMask 0) []
    (by intro c hc; rw [List.mem_singleton] at hc; rw [hc]; decide)⟩

/-- C5: a Combination is valid exactly when the operand masks are
disjoint, both operands are numbers, the left operand value is nonzero,
and the result is not complete; and a valid Combination carries the
concatenated value together with exactly one text, the decimal numeral
of that value. -/
theorem C5_combination_spec (a b : Segment) :
    ((Combination.make a b).isValid = true ↔
      (a.usedDigits &&& b.usedDigits = 0 ∧ a.isNumber = true ∧ b.isNumber = true ∧
        a.value ≠ 0 ∧ (Combination.make a b).isComplete = false)) ∧
    ((Combination.make a b).isValid = true →
      (Combination.make a b).value =
        a.value * 10 ^ (intToString b.value).length + b.value ∧
      (Combination.make a b).expressions = [intToString ((Combination.make a b).value)]) := by
  constructor
  · rw [Combination.comb_make_isValid]
    have hc : (Combination.make a b).isComplete = false ↔
        ¬(a.usedDigits ||| b.usedDigits = 15) := by
      rw [Combination.comb_make_isComplete]
      simp
    simp only [Bool.and_eq_true, Bool.not_eq_true', haveRepeatingDigits_eq_false_iff,
      decide_eq_true_eq, decide_eq_false_iff_not]
    rw [hc]
    tauto
  · intro h
    obtain ⟨hval, hexp, _⟩ := Combination.comb_make_valid_spec a b h
    refine ⟨hval, ?_⟩
    rw [hexp, hval]

/-- Witness for C5 on the concatenation of the digits 1 and 2. -/
theorem C5_combination_spec_witness :
    (Combination.make (segDigit 1 1) (segDigit 2 2)).value =
      (segDigit 1 1).value * 10 ^ (intToString (segDigit 2 2).value).length +
        (segDigit 2 2).value ∧
    (Combination.make (segDigit 1 1) (segDigit 2 2)).expressions =
      [intToString ((Combination.make (segDigit 1 1) (segDigit 2 2)).value)] :=
  (C5_combination_spec (segDigit 1 1) (segDigit 2 2)).2 (by decide)

/-- C8: on the input 0, 0, 0, 0 the returned solutions map is empty, no
segment is a solution and every segment has value zero; only the four
digit segments seed the registry, because every candidate Combination is
rejected by the nonzero-leading-digit check. -/
theorem C8_zero_input :
    (∃ res, Calculator.make 4 [0, 0, 0, 0] = Except.ok res ∧ res.solutions = [] ∧
      res.segments.all (fun s => decide (s.value = 0) && !s.isSolution) = true) ∧
    (∃ c0, Calculator.init [0, 0, 0, 0] = Except.ok c0 ∧ c0.segments.length = 4 ∧
      c0.segments.all
        (fun a => c0.segments.all (fun b => !(Combination.make a b).isValid)) = true) := by
  refine ⟨⟨calc0000, by rfl, by decide, by decide⟩, ⟨init0000, by rfl, by decide, by decide⟩⟩
